import Mathlib

/-!
Shallow embedding of the Home-Netflix-Project rename/planning engine
(src/name_normalizor.py, src/show_name_normal.py, src/sort_movies.py,
src/file_cleanup.py) and proofs about its specification.

Modelling conventions:
* Python strings are Lean `String`s; most functions are defined on
  `List Char` and wrapped.  Case mappings (`lower`, `upper`, `casefold`)
  are modelled on the ASCII range, `str.isalnum`/`\w`/`\s` likewise.
* A `pathlib.Path` is modelled as its path string; `name`, `suffix`,
  `stem`, `suffixes`, `with_name`, `with_suffix("")` follow the pathlib
  definitions on the final path component.
* The filesystem is an explicit structure of oracles (`onDisk` for
  `Path.exists`, `samefile` for `os.path.samefile`, `entries`/`isFile`
  for directory iteration); directory walking itself is out of core
  scope, so walkers' sorted listings are passed in as lists.
* Python exceptions that propagate out of a planning function are
  modelled with `Except String`.
-/

/-- Whitespace characters of Python's `\s` / `str.strip()`, ASCII range. -/
def isWsChar (c : Char) : Bool :=
  c = ' ' || c = '\t' || c = '\n' || c = '\r' || c = '\x0b' || c = '\x0c'

/-- Python `str.lower` on one character, ASCII range. -/
def lowerChar (c : Char) : Char :=
  if 'A' ≤ c ∧ c ≤ 'Z' then Char.ofNat (c.toNat + 32) else c

/-- Python `str.upper` on one character, ASCII range. -/
def upperChar (c : Char) : Char :=
  if 'a' ≤ c ∧ c ≤ 'z' then Char.ofNat (c.toNat - 32) else c

def lowerStr (s : String) : String := ⟨s.data.map lowerChar⟩

def upperStr (s : String) : String := ⟨s.data.map upperChar⟩

def isDigitChar (c : Char) : Bool := '0' ≤ c ∧ c ≤ '9'

/-- Python `str.isalnum`, ASCII range. -/
def isAlnumChar (c : Char) : Bool :=
  isDigitChar c || ('a' ≤ c ∧ c ≤ 'z') || ('A' ≤ c ∧ c ≤ 'Z')

/-- Word characters of the regex class `\w`, ASCII range. -/
def isWordChar (c : Char) : Bool := isAlnumChar c || c = '_'

def trimWsL (cs : List Char) : List Char :=
  ((cs.dropWhile isWsChar).reverse.dropWhile isWsChar).reverse

/-- Python `str.strip()` with no argument. -/
def trimWs (s : String) : String := ⟨trimWsL s.data⟩

/-- Python `str.strip(chars)`: drop characters of `chars` from both ends. -/
def stripCharsL (chars : List Char) (cs : List Char) : List Char :=
  ((cs.dropWhile (chars.contains ·)).reverse.dropWhile (chars.contains ·)).reverse

def stripChars (chars : String) (s : String) : String :=
  ⟨stripCharsL chars.data s.data⟩

/-- Python `str.endswith`. -/
def endsWithStr (s t : String) : Bool := t.data.isSuffixOf s.data

/-- Python `str.startswith`. -/
def startsWithStr (s t : String) : Bool := t.data.isPrefixOf s.data

/-- Value of a decimal digit string, as built by Python `int()`. -/
def natOfDigits (cs : List Char) : Nat :=
  cs.foldl (fun n c => n * 10 + (c.toNat - 48)) 0

/-- Decimal rendering of a natural number (Python `str(i)`). -/
def natToStr (n : Nat) : String := toString n

/-- Python `("%02d" % n)` / `f"{n:02d}"`. -/
def z2 (n : Nat) : String := if n < 10 then "0" ++ toString n else toString n

/-- Exact split on one separator character, like Python `s.split(" ")`:
empty pieces are kept (callers filter them). -/
def splitCharL (sep : Char) : List Char → List (List Char)
  | [] => [[]]
  | c :: rest =>
    match splitCharL sep rest with
    | [] => if c = sep then [[], []] else [[c]]
    | p :: ps => if c = sep then [] :: p :: ps else (c :: p) :: ps

/-- Join a token list with single spaces, like Python `" ".join(ts)`. -/
def joinSpace : List String → String
  | [] => ""
  | [t] => t
  | t :: rest => t ++ " " ++ joinSpace rest

/-- Replace every run of whitespace by one space (regex `\s+` → `" "`).
The Boolean argument records whether the previous character was part of a
whitespace run. -/
def collapseWsGo : List Char → Bool → List Char
  | [], _ => []
  | c :: rest, inRun =>
    if isWsChar c then
      if inRun then collapseWsGo rest true else ' ' :: collapseWsGo rest true
    else c :: collapseWsGo rest false

def collapseWs (s : String) : String := ⟨collapseWsGo s.data false⟩

/-- Split a character list at the first occurrence of a class of characters,
returning the prefix and the rest starting at the match (span). -/
def spanNot (p : Char → Bool) (cs : List Char) : List Char × List Char :=
  (cs.takeWhile (fun c => !p c), cs.dropWhile (fun c => !p c))

-- ---------------------------------------------------------------------------
-- pathlib model: a Path is its path string; the operations below follow
-- PurePath.name / .suffix / .stem / .suffixes / .with_name / .with_suffix("")
-- on the final component.
-- ---------------------------------------------------------------------------

/-- Index (from the start) of the last occurrence of `c`, if any
(`str.rfind`). -/
def lastIdxOf (c : Char) : List Char → Option Nat
  | [] => none
  | x :: rest =>
    match lastIdxOf c rest with
    | some i => some (i + 1)
    | none => if x = c then some 0 else none

/-- Final path component: the part after the last `/` (`Path.name`). -/
def pathName (p : String) : String :=
  match lastIdxOf '/' p.data with
  | none => p
  | some i => ⟨p.data.drop (i + 1)⟩

/-- Directory part including the trailing slash (empty if no slash): used to
rebuild a path around `with_name`. -/
def dirPart (p : String) : String :=
  match lastIdxOf '/' p.data with
  | none => ""
  | some i => ⟨p.data.take (i + 1)⟩

/-- `Path.with_name`: replace the final component. -/
def withName (p n : String) : String := dirPart p ++ n

/-- `PurePath.suffix` of a filename `name` (no slashes): `name[i:]` for the
last dot index `i` when `0 < i < len(name) - 1`, else `""`. -/
def suffixOfName (name : String) : String :=
  match lastIdxOf '.' name.data with
  | none => ""
  | some i => if 0 < i ∧ i < name.data.length - 1 then ⟨name.data.drop i⟩ else ""

/-- `PurePath.stem` of a filename. -/
def stemOfName (name : String) : String :=
  match lastIdxOf '.' name.data with
  | none => name
  | some i => if 0 < i ∧ i < name.data.length - 1 then ⟨name.data.take i⟩ else name

/-- `Path.suffix` of a full path. -/
def suffixOf (p : String) : String := suffixOfName (pathName p)

/-- `Path.stem` of a full path. -/
def stemOf (p : String) : String := stemOfName (pathName p)

/-- `str(Path.with_suffix(""))`: the path with its suffix removed. -/
def withSuffixEmpty (p : String) : String :=
  ⟨p.data.take (p.data.length - (suffixOf p).data.length)⟩

/-- `PurePath.suffixes` of a filename: `[]` when the name ends with a dot,
else one `"." + piece` per piece after the first of `name.lstrip('.')`
split on dots. -/
def suffixesOfName (name : String) : List String :=
  if name.data ≠ [] ∧ name.data.getLast? = some '.' then []
  else
    match splitCharL '.' (name.data.dropWhile (· = '.')) with
    | [] => []
    | _ :: rest => rest.map (fun piece => ⟨'.' :: piece⟩)

/-- `Path.parts`, lowercased piecewise comparisons are done by callers. -/
def pathParts (p : String) : List String :=
  ((splitCharL '/' p.data).filter (· ≠ [])).map (fun cs => ⟨cs⟩)

-- ---------------------------------------------------------------------------
-- Filesystem oracle
-- ---------------------------------------------------------------------------

/-- Filesystem oracles: `onDisk` models `Path.exists()`, `samefile` models
`os.path.samefile`, `entries` is the flat list of paths visible to
`iterdir` (in iteration order) and `isFile` models `Path.is_file()`. -/
structure FS where
  onDisk : String → Bool
  samefile : String → String → Bool
  entries : List String
  isFile : String → Bool

/-- Entries of one directory, in `entries` order (`Path.iterdir`). -/
def FS.iterdir (fs : FS) (dir : String) : List String :=
  fs.entries.filter (fun p => dirPart p = dir ++ "/")

-- ---------------------------------------------------------------------------
-- show_name_normal.py: tokenizer
-- ---------------------------------------------------------------------------

/-- Combining diacritical mark (the block U+0300 to U+036F dropped by
`strip_diacritics` after NFKD normalization; the decomposition table itself
is modelled as the identity, which it is on ASCII input). -/
def isCombiningMark (c : Char) : Bool := 0x300 ≤ c.toNat ∧ c.toNat ≤ 0x36F

/-- Model of `strip_diacritics`: drop combining marks. -/
def stripDiacritics (s : String) : String :=
  ⟨s.data.filter (fun c => !isCombiningMark c)⟩

/-- Word boundary `\b` after the matched digit: end of string or a non-word
character. -/
def hBoundaryAfter : List Char → Bool
  | [] => true
  | c :: _ => !isWordChar c

/-- Literal `26`, the captured digit `4` or `5`, and the closing word
boundary. -/
def hExpect26 : List Char → Option Char
  | '2' :: '6' :: d :: r4 =>
    if (d = '4' ∨ d = '5') ∧ hBoundaryAfter r4 = true then some d else none
  | _ => none

/-- Word boundary `\b` before the `h`: start of string or a non-word
previous character. -/
def hBoundaryBefore : Option Char → Bool
  | none => true
  | some c => !isWordChar c

/-- Does a match of the codec-split regex (case-insensitive `h`, optional
whitespace, one separator out of dot, hyphen, underscore or space, optional
whitespace, then `26` and a captured `4` or `5`, in word boundaries) start
at the head of `cs`?  `prev` is the character before `cs` (`none` at string
start).  Returns the matched length and the captured digit.  The separator
is the first non-whitespace character after the `h` when that is a dot,
hyphen or underscore; otherwise one of the skipped whitespace characters
must be a literal space. -/
def hMatchAt (prev : Option Char) (cs : List Char) : Option (Nat × Char) :=
  match cs with
  | c :: rest =>
    if hBoundaryBefore prev && (c == 'h' || c == 'H') then
      let (w1, r1) := spanNot (fun x => !isWsChar x) rest
      match r1 with
      | sep :: r2 =>
        if sep = '.' ∨ sep = '-' ∨ sep = '_' then
          let (w2, r3) := spanNot (fun x => !isWsChar x) r2
          match hExpect26 r3 with
          | some d => some (1 + w1.length + 1 + w2.length + 3, d)
          | none =>
            if w1.contains ' ' then
              match hExpect26 r1 with
              | some d => some (1 + w1.length + 3, d)
              | none => none
            else none
        else
          if w1.contains ' ' then
            match hExpect26 r1 with
            | some d => some (1 + w1.length + 3, d)
            | none => none
          else none
      | [] => none
    else none
  | [] => none

/-- Scanning loop of `re.sub(r"(?i)\bh\s*[.\-_ ]\s*26([45])\b", r"h26\1", s)`.
Fuel-driven so that it reduces in the kernel; `hSub` supplies enough fuel. -/
def hSubGo : Nat → Option Char → List Char → List Char
  | 0, _, cs => cs
  | fuel + 1, prev, cs =>
    match cs with
    | [] => []
    | c :: rest =>
      match hMatchAt prev (c :: rest) with
      | some (n, d) => 'h' :: '2' :: '6' :: d :: hSubGo fuel (some d) ((c :: rest).drop n)
      | none => c :: hSubGo fuel (some c) rest

def hSub (s : String) : String := ⟨hSubGo (s.data.length + 1) none s.data⟩

def isBracketChar (c : Char) : Bool :=
  c = '[' || c = ']' || c = '(' || c = ')' || c = '{' || c = '}'

/-- Regex `[\[\]\(\)\{\}]` → `" "`: bracket characters become spaces,
their contents are kept. -/
def bracketSub (s : String) : String :=
  ⟨s.data.map (fun c => if isBracketChar c then ' ' else c)⟩

/-- Separator characters of the tokenizer's separator class: dot, underscore,
hyphen, slash, plus, comma. -/
def isSepChar (c : Char) : Bool :=
  c = '.' || c = '_' || c = '-' || c = '/' || c = '+' || c = ','

/-- Punctuation in the tokenizer's sense: the bracket characters and the
separator characters it normalizes away (section 4.1 of the spec). -/
def isTokenizerPunct (c : Char) : Bool := isSepChar c || isBracketChar c

/-- Separator-run substitution: each run of separator characters becomes one
space. -/
def sepSubGo : List Char → Bool → List Char
  | [], _ => []
  | c :: rest, inRun =>
    if isSepChar c then
      if inRun then sepSubGo rest true else ' ' :: sepSubGo rest true
    else c :: sepSubGo rest false

def sepSub (s : String) : String := ⟨sepSubGo s.data false⟩

/-- `normalize_for_tokens`: diacritics, codec splits, brackets, separators,
whitespace collapse, strip. -/
def normalizeForTokens (stem : String) : String :=
  trimWs (collapseWs (sepSub (bracketSub (hSub (stripDiacritics stem)))))

/-- `tokenize`: split the normalized string on single spaces, drop empties. -/
def tokenize (stem : String) : List String :=
  (((normalizeForTokens stem).data |> splitCharL ' ').filter (· ≠ [])).map
    (fun cs => ⟨cs⟩)

-- ---------------------------------------------------------------------------
-- show_name_normal.py: token classification
-- ---------------------------------------------------------------------------

/-- `KEEP_SHORT_WORDS`. -/
def keepShortWords : List String :=
  ["a", "an", "and", "as", "at", "by", "for", "from", "in", "of", "on", "or",
   "the", "to", "with", "new", "old", "bad", "big", "war", "man", "mr", "ms",
   "dr", "vs", "pt", "part"]

def isVowelChar (c : Char) : Bool :=
  c = 'a' || c = 'e' || c = 'i' || c = 'o' || c = 'u'

/-- `looks_like_tag`. -/
def looksLikeTag (tok : String) : Bool :=
  let t := trimWs tok
  if t.data = [] then false
  else if t.data.length ≤ 6 ∧ upperStr t = t ∧ lowerStr t ≠ t then
    !(keepShortWords.contains (lowerStr t))
  else if t.data.any isDigitChar ∧ t.data.length ≤ 10 then true
  else
    let low := (lowerStr t).data
    low.length ≤ 8 ∧ low.all isAlnumChar ∧ !low.any isVowelChar

/-- `JUNK_WORDS` (including the dead mixed-case entries, verbatim). -/
def junkWords : List String :=
  ["nf", "netflix", "amzn", "amazon", "prime", "hulu", "dsnp", "disney",
   "itunes",
   "web", "webdl", "webrip", "hdtv", "pdtv", "dvdrip", "bdrip", "brrip",
   "bluray", "remux",
   "uhd", "hd", "sd", "4k", "2160p", "1080p", "720p", "480p",
   "x264", "x265", "h264", "h265", "hevc", "av1",
   "aac", "ac3", "eac3", "dd", "ddp", "dts", "truehd", "atmos",
   "complete", "repack", "proper", "extended", "unrated", "internal",
   "dubbed", "subbed", "subs", "multi", "readnfo", "nfo", "hdr", "sdr",
   "cam", "hdcam", "ts", "hdts", "tc", "hdtc", "scr", "screener", "dvdscr",
   "r5", "line",
   "rarbg", "eztv", "yify", "tgx", "H 264", "max", "hbo", "hbomax",
   "X264-DIMENSION", "DDP5", "XviD-DEMAND", "WEB-DLRip", "x264-BoB"]

/-- Tail of `RE_AUDIO_TOKEN` after the codec word: empty, one digit, or one
digit, a dot and one digit (`(?:\d(?:\.\d)?)?$`). -/
def audioDigitTail (cs : List Char) : Bool :=
  match cs with
  | [] => true
  | [d] => isDigitChar d
  | [d, '.', d2] => isDigitChar d ∧ isDigitChar d2
  | _ => false

/-- `RE_AUDIO_TOKEN.match(low)`: codec word, optional channel digits.  The
alternation is modelled as an existence check over the codec words, which
matches the regex since the alternatives are tried exhaustively. -/
def audioTokenMatch (low : String) : Bool :=
  ["ddp", "dd", "eac3", "ac3", "aac", "dts", "truehd"].any (fun p =>
    startsWithStr low p ∧ audioDigitTail (low.data.drop p.data.length))

/-- `is_junk_token`. -/
def isJunkToken (tok : String) : Bool :=
  let low := lowerStr tok
  if junkWords.contains low then true
  else if audioTokenMatch low then true
  else
    junkWords.contains
      ⟨low.data.filter (fun c => c ≠ '-' ∧ c ≠ '_' ∧ c ≠ '.')⟩

/-- `EXTRA_JUNK_LITERALS`. -/
def extraJunkLiterals : List String :=
  ["nhtfs", "tgx", "tggx", "ntb", "yts", "ettv", "ion10", "rarbg", "eztv",
   "yify"]

/-- Regex `^(19\d{2}|20\d{2})$` (`RE_YEAR` / `PROPER_YEAR_FORMATS`). -/
def isYearFormat (tok : String) : Bool :=
  match tok.data with
  | [c0, c1, c2, c3] =>
    ((c0 = '1' ∧ c1 = '9') ∨ (c0 = '2' ∧ c1 = '0')) ∧ isDigitChar c2 ∧
      isDigitChar c3
  | _ => false

/-- Regex `(?i)^s(?P<s>\d{1,2})e(?P<e>\d{1,3})$` (`RE_SXXEYY`) applied to an
already lowercased token; returns the parsed season and episode. -/
def parseSxxEyy (low : String) : Option (Nat × Nat) :=
  match low.data with
  | 's' :: rest =>
    let (ds1, r1) := spanNot (fun c => !isDigitChar c) rest
    if 1 ≤ ds1.length ∧ ds1.length ≤ 2 then
      match r1 with
      | 'e' :: r2 =>
        let (ds2, r3) := spanNot (fun c => !isDigitChar c) r2
        if 1 ≤ ds2.length ∧ ds2.length ≤ 3 ∧ r3 = [] then
          some (natOfDigits ds1, natOfDigits ds2)
        else none
      | _ => none
    else none
  | _ => none

/-- Regex `(?i)^(?P<s>\d{1,2})x(?P<e>\d{1,3})$` (`RE_XXxYY`) applied to an
already lowercased token. -/
def parseXXxYY (low : String) : Option (Nat × Nat) :=
  let (ds1, r1) := spanNot (fun c => !isDigitChar c) low.data
  if 1 ≤ ds1.length ∧ ds1.length ≤ 2 then
    match r1 with
    | 'x' :: r2 =>
      let (ds2, r3) := spanNot (fun c => !isDigitChar c) r2
      if 1 ≤ ds2.length ∧ ds2.length ≤ 3 ∧ r3 = [] then
        some (natOfDigits ds1, natOfDigits ds2)
      else none
    | _ => none
  else none

/-- Result tuple of `classify_tokens`. -/
structure ClassifyRes where
  season : Option Nat
  episode : Option Nat
  title : List String
  removed : List String
deriving Repr, DecidableEq

/-- Loop body of `classify_tokens`, translated branch for branch.  Note the
source computes `m = RE_XXxYY.match(low)` but tests `looks_like_tag` before
`if m:`, so the alternate-form branch is only reached when the tag test
fails. -/
def classifyGo : List String → ClassifyRes → ClassifyRes
  | [], st => st
  | tok :: rest, st =>
    let low := lowerStr tok
    match parseSxxEyy low with
    | some (s, e) =>
      classifyGo rest { st with season := some s, episode := some e,
                                removed := st.removed ++ [tok] }
    | none =>
      let m := parseXXxYY low
      if looksLikeTag tok ∧ !(keepShortWords.contains (lowerStr tok)) then
        classifyGo rest { st with removed := st.removed ++ [tok] }
      else
        match m with
        | some (s, e) =>
          classifyGo rest { st with season := some s, episode := some e,
                                    removed := st.removed ++ [tok] }
        | none =>
          if isJunkToken tok then
            classifyGo rest { st with removed := st.removed ++ [tok] }
          else if extraJunkLiterals.contains low then
            classifyGo rest { st with removed := st.removed ++ [tok] }
          else if isYearFormat tok then
            classifyGo rest { st with removed := st.removed ++ [tok] }
          else
            classifyGo rest { st with title := st.title ++ [tok] }

/-- `classify_tokens`. -/
def classifyTokens (toks : List String) : ClassifyRes :=
  classifyGo toks ⟨none, none, [], []⟩

-- ---------------------------------------------------------------------------
-- show_name_normal.py: episode parsing and destination naming
-- ---------------------------------------------------------------------------

/-- Bracketed-chunk removal regex of `parse_episode_from_filename` and
`clean_title_from_filename`: a bracket, its contents up to the first matching
closing bracket, and the closer are replaced by one space; an unmatched
opener is left alone.  Fuel-driven scanning loop. -/
def bracketChunkSubGo : Nat → List Char → List Char
  | 0, cs => cs
  | fuel + 1, cs =>
    match cs with
    | [] => []
    | c :: rest =>
      let tryClose := fun (close : Char) =>
        let b := rest.dropWhile (· ≠ close)
        match b with
        | _ :: after => some after
        | [] => none
      if c = '[' then
        match tryClose ']' with
        | some after => ' ' :: bracketChunkSubGo fuel after
        | none => c :: bracketChunkSubGo fuel rest
      else if c = '(' then
        match tryClose ')' with
        | some after => ' ' :: bracketChunkSubGo fuel after
        | none => c :: bracketChunkSubGo fuel rest
      else if c = '{' then
        match tryClose '}' with
        | some after => ' ' :: bracketChunkSubGo fuel after
        | none => c :: bracketChunkSubGo fuel rest
      else c :: bracketChunkSubGo fuel rest

def bracketChunkSub (s : String) : String :=
  ⟨bracketChunkSubGo (s.data.length + 1) s.data⟩

/-- `parse_episode_from_filename` (also `parse_season_episode`). -/
def parseEpisodeFromFilename (filename : String) : Option (Nat × Nat × String) :=
  let stem := stemOfName filename
  let stem2 := bracketChunkSub stem
  let toks := tokenize stem2
  let r := classifyTokens toks
  match r.season, r.episode with
  | some s, some e => some (s, e, collapseWs (trimWs (joinSpace r.title)))
  | _, _ => none

/-- `clean_title_from_filename` (the `filename` argument is unused in the
source as well). -/
def cleanTitleFromFilename (filename fallbackTitle : String) : String :=
  let _ := filename
  let stem := bracketChunkSub fallbackTitle
  let toks := tokenize stem
  let r := classifyTokens toks
  stripChars " .-_" (collapseWs (trimWs (joinSpace r.title)))

/-- `VIDEO_EXTS` / `VALID_VIDEO_EXTENSIONS`. -/
def videoExtsList : List String :=
  [".mkv", ".mp4", ".avi", ".m4v", ".mov", ".wmv", ".m2ts"]

/-- Right-side `str.strip(chars)`. -/
def rstripChars (chars : String) (s : String) : String :=
  ⟨(s.data.reverse.dropWhile (chars.data.contains ·)).reverse⟩

/-- Body of `ensure_single_extension` before the real extension is appended:
strip the (single) trailing recognized video extension, if any, then
right-strip spaces, dots, hyphens and underscores.  At most one of the
extensions can match, so iteration order over the Python set is
irrelevant. -/
def stripRedundantVideoExt (base : String) : String :=
  let lower := lowerStr base
  match videoExtsList.find? (fun e => endsWithStr lower e) with
  | some e =>
    rstripChars " .-_" ⟨base.data.take (base.data.length - e.data.length)⟩
  | none => base

/-- `ensure_single_extension`. -/
def ensureSingleExtension (baseNoExt : String) (src : String) : String :=
  stripRedundantVideoExt (trimWs baseNoExt) ++ lowerStr (suffixOf src)

/-- `season_folder`. -/
def seasonFolder (showDir : String) (season : Nat) : String :=
  showDir ++ "/Season " ++ z2 season

/-- Probe loop `for i in range(start, start+fuel)` returning the first `i`
satisfying the predicate. -/
def probeFrom (pred : Nat → Bool) : Nat → Nat → Option Nat
  | 0, _ => none
  | fuel + 1, i => if pred i then some i else probeFrom pred fuel (i + 1)

/-- `resolve_collision` of show_name_normal.py: purely on-disk probing, no
reservation set.  The `RuntimeError` after 999 failed probes is modelled as
`Except.error`. -/
def resolveCollisionShow (fs : FS) (dst : String) : Except String String :=
  if !fs.onDisk dst then .ok dst
  else
    let stem := stemOf dst
    let ext := suffixOf dst
    match probeFrom
        (fun i =>
          !fs.onDisk (withName dst (stem ++ " - dup" ++ toString i ++ ext)))
        999 1 with
    | some i => .ok (withName dst (stem ++ " - dup" ++ toString i ++ ext))
    | none => .error ("Too many collisions for " ++ dst)

/-- `Move` records of show_name_normal.py. -/
structure Move where
  src : String
  dst : String
deriving Repr, DecidableEq

/-- Per-file body of the `build_plan_for_show_dir` loop. -/
def planShowFile (fs : FS) (showDir showNameClean src : String) :
    Except String (Option Move) :=
  if !(fs.isFile src) || !(videoExtsList.contains (lowerStr (suffixOf src)))
  then .ok none
  else
    match parseEpisodeFromFilename (pathName src) with
    | none => .ok none
    | some (season, episode, rawTitle) =>
      let title := cleanTitleFromFilename (pathName src) rawTitle
      let title := stripChars " .-_" (collapseWs title)
      let title := if lowerStr title = lowerStr showNameClean then "" else title
      let epTag := "S" ++ z2 season ++ "E" ++ z2 episode
      let title :=
        if startsWithStr (lowerStr title) (lowerStr showNameClean ++ " ") then
          stripChars " -._" ⟨title.data.drop showNameClean.data.length⟩
        else title
      let newBase :=
        showNameClean ++ " - " ++ epTag ++
          (if title ≠ "" then " - " ++ title else "")
      let dstDir := seasonFolder showDir season
      let newName := ensureSingleExtension newBase src
      match resolveCollisionShow fs (dstDir ++ "/" ++ newName) with
      | .error msg => .error msg
      | .ok dst => .ok (if src ≠ dst then some (Move.mk src dst) else none)

def buildShowGo (fs : FS) (showDir showNameClean : String) :
    List String → Except String (List Move)
  | [] => .ok []
  | src :: rest =>
    match planShowFile fs showDir showNameClean src with
    | .error msg => .error msg
    | .ok mv =>
      match buildShowGo fs showDir showNameClean rest with
      | .error msg => .error msg
      | .ok plan => .ok ((mv.toList) ++ plan)

/-- `build_plan_for_show_dir`; `files` is the sorted recursive listing of
`show_dir` supplied by the directory walker (walking itself is out of core
scope, see section 6 of the spec). -/
def buildPlanForShowDir (fs : FS) (files : List String)
    (showDir showName : String) : Except String (List Move) :=
  buildShowGo fs showDir (trimWs (collapseWs showName)) files

/-- Oracles for `apply` in show_name_normal.py: whether the per-move
`mkdir(parents=True, exist_ok=True)` on the destination's parent succeeds
(it raises, e.g. FileExistsError, when a plain file occupies the season
folder path), and whether `safe_move` succeeds (`safe_move` catches its own
exceptions and returns a Boolean). -/
structure ShowApplyEnv where
  mkdirOk : Move → Bool
  moveOk : Move → Bool

/-- `apply` of show_name_normal.py: for each move in order, the destination's
parent directory is first created, then `safe_move` is attempted; a failed
`safe_move` is logged and the loop continues with the next move.  The
`mkdir` call sits outside every try block, so an error raised there
propagates out of `apply` and ends the whole loop at once: the result pairs
the trace of the processed moves with `true` when the loop ran to
completion and `false` when an uncaught `mkdir` error aborted it. -/
def applyShow (env : ShowApplyEnv) : List Move → List (Move × Bool) × Bool
  | [] => ([], true)
  | m :: rest =>
    if env.mkdirOk m then
      match applyShow env rest with
      | (tr, done) => ((m, env.moveOk m) :: tr, done)
    else ([], false)

-- ---------------------------------------------------------------------------
-- file_cleanup.py: duplicate-name normalization
-- ---------------------------------------------------------------------------

/-- Parenthesized digit alternative of the duplicate-marker regexes:
an opening parenthesis, one or more digits, a closing parenthesis. -/
def parenDigits (cs : List Char) : Bool :=
  match cs with
  | '(' :: rest =>
    let mid := rest.dropLast
    rest.getLast? = some ')' ∧ mid ≠ [] ∧ mid.all isDigitChar
  | _ => false

/-- Core alternation of `COPY_TAIL_RE` (file_cleanup.py), case-insensitive. -/
def copyTailCoreMatch (core : List Char) : Bool :=
  let low := core.map lowerChar
  parenDigits low || low = "copy".data || low = "duplicate".data ||
    low = "dup".data

/-- Does the whole string match `COPY_TAIL_RE`'s pattern with its leading and
trailing whitespace?  Whitespace can only surround the core since every
alternative is whitespace-free. -/
def copyTailMatch (cs : List Char) : Bool := copyTailCoreMatch (trimWsL cs)

/-- `COPY_TAIL_RE.sub("", s)`: remove the longest suffix matching the
end-anchored pattern, i.e. cut at the leftmost position whose suffix
matches. -/
def copyTailSubL : List Char → List Char
  | [] => []
  | c :: rest => if copyTailMatch (c :: rest) then [] else c :: copyTailSubL rest

def copyTailSub (s : String) : String := ⟨copyTailSubL s.data⟩

/-- `normalize_dupe_name`. -/
def normalizeDupeName (name : String) : String :=
  let stem := stemOfName name
  let ext := String.join (suffixesOfName name)
  lowerStr (trimWs (copyTailSub stem) ++ ext)

-- ---------------------------------------------------------------------------
-- name_normalizor.py: parsing
-- ---------------------------------------------------------------------------

/-- Core alternation of `TRAILING_COPY_RE` (name_normalizor.py):
parenthesized digits, bare digits, `copy`, or `dup` with optional digits;
case-insensitive. -/
def trailingCopyCoreMatch (core : List Char) : Bool :=
  let low := core.map lowerChar
  parenDigits low || (low ≠ [] ∧ low.all isDigitChar) || low = "copy".data ||
    (low.take 3 = "dup".data ∧ (low.drop 3).all isDigitChar)

def trailingCopyMatch (cs : List Char) : Bool :=
  trailingCopyCoreMatch (trimWsL cs)

/-- `TRAILING_COPY_RE.sub("", s)`: cut at the leftmost position whose whole
suffix matches the end-anchored pattern. -/
def trailingCopySubL : List Char → List Char
  | [] => []
  | c :: rest =>
    if trailingCopyMatch (c :: rest) then [] else c :: trailingCopySubL rest

def trailingCopySub (s : String) : String := ⟨trailingCopySubL s.data⟩

/-- `SIDECAR_EXTENSIONS`. -/
def sidecarExtsList : List String :=
  [".srt", ".ass", ".ssa", ".vtt", ".sub", ".idx", ".nfo"]

/-- `MEDIA_EXTS | SIDECAR_EXTS` (all already lowercase). -/
def mediaSidecarExts : List String := videoExtsList ++ sidecarExtsList

/-- `normalized_name_for_ext`. -/
def normalizedNameForExt (name : String) : String :=
  let n := trimWs name
  if mediaSidecarExts.any (fun e => endsWithStr (lowerStr n) e) then n
  else
    let stripped := trimWs (trailingCopySub n)
    if mediaSidecarExts.any (fun e => endsWithStr (lowerStr stripped) e) then
      stripped
    else n

/-- `KNOWN_JUNK_NAMES` (duplicates of the source literal kept; membership is
unaffected). -/
def knownJunkNames : List String :=
  ["480p", "720p", "1080p", "2160p", "4k", "uhd",
   "x264", "x265", "h264", "h265", "hevc",
   "bluray", "bdrip", "brrip", "remux", "web", "webrip", "webdl", "hdrip",
   "dvdrip", "hdtv",
   "hdr", "hdr10", "hdr10+", "dv", "dolbyvision",
   "aac", "ac3", "eac3", "dd", "ddp", "dts", "dtshd", "truehd", "atmos",
   "5.1", "7.1", "2.0",
   "yify", "rarbg",
   "unrated", "proper", "repack", "dl", "web-dl", "webrip", "hdrip", "brrip",
   "dvdrip",
   "copy", "sample",
   "jyk", "rarbg", "ettv", "evo"]

/-- `CURRENT_YEAR` (`datetime.now().year` at verification time). -/
def currentYear : Nat := 2026

/-- Leftmost occurrence of regex `(19\d{2}|20\d{2})` (`YEAR_IN_TOKEN`),
returning the four matched characters. -/
def findYearSub : List Char → Option (List Char)
  | c0 :: c1 :: c2 :: c3 :: rest =>
    if ((c0 = '1' ∧ c1 = '9') ∨ (c0 = '2' ∧ c1 = '0')) ∧ isDigitChar c2 ∧
        isDigitChar c3 then
      some [c0, c1, c2, c3]
    else findYearSub (c1 :: c2 :: c3 :: rest)
  | _ => none

/-- `extract_year`. -/
def extractYear (tok : String) : Option String :=
  match findYearSub tok.data with
  | none => none
  | some ds =>
    let y := natOfDigits ds
    if 1900 ≤ y ∧ y ≤ currentYear then some ⟨ds⟩ else none

def isRomanChar (c : Char) : Bool :=
  c = 'i' || c = 'v' || c = 'x' || c = 'l' || c = 'c' || c = 'd' || c = 'm'

/-- One token of `smart_title`: a word whose lowercase form matches
`[ivxlcdm]+` in full is uppercased, otherwise the first character is
uppercased and the rest lowercased. -/
def smartWord (t : String) : String :=
  if (lowerStr t).data ≠ [] ∧ (lowerStr t).data.all isRomanChar then upperStr t
  else
    match t.data with
    | [] => t
    | c :: rest => ⟨upperChar c :: rest.map lowerChar⟩

/-- `smart_title`. -/
def smartTitle (tokens : List String) : String :=
  trimWs (collapseWs (joinSpace (tokens.map smartWord)))

/-- Separator class of `PARSE_ON`: dot, hyphen, underscore, whitespace,
brackets, braces, parentheses, semicolon, colon, comma. -/
def isParseSep (c : Char) : Bool :=
  c = '.' || c = '-' || c = '_' || isWsChar c || c = '[' || c = ']' ||
  c = '(' || c = ')' || c = '{' || c = '}' || c = ';' || c = ':' || c = ','

/-- Split on a character class, keeping empty pieces (callers filter). -/
def splitClassL (p : Char → Bool) : List Char → List (List Char)
  | [] => [[]]
  | c :: rest =>
    match splitClassL p rest with
    | [] => if p c then [[], []] else [[c]]
    | piece :: ps => if p c then [] :: piece :: ps else (c :: piece) :: ps

/-- `[t for t in PARSE_ON.split(stem) if t]`. -/
def parseTokens (stem : String) : List String :=
  ((splitClassL isParseSep stem.data).filter (· ≠ [])).map (fun cs => ⟨cs⟩)

/-- Token loop of `parse_base_name`, accumulating title tokens and stopping
at the first accepted year. -/
def pbLoop : List String → List String → List String × Option String
  | [], acc => (acc, none)
  | tok :: rest, acc =>
    let low := lowerStr tok
    if knownJunkNames.contains low ∧ acc ≠ [] then pbLoop rest acc
    else
      let y := extractYear tok
      if y.isSome ∧ acc ≠ [] then (acc, y)
      else if !(knownJunkNames.contains low) then pbLoop rest (acc ++ [tok])
      else pbLoop rest acc

/-- `parse_base_name`. -/
def parseBaseName (stem : String) : String × Option String :=
  let toks := parseTokens stem
  match pbLoop toks [] with
  | (ts, yr) => (if ts = [] then stem else smartTitle ts, yr)

/-- `effective_extension_from_name`.  The candidate list is
`sorted(MEDIA_EXTS | SIDECAR_EXTS, key=len, reverse=True)`: the five-character
`.m2ts` first, then the four-character extensions (their mutual order is
unspecified in the source and irrelevant, since a string can end with at most
one of them). -/
def effectiveExtensionFromName (name : String) : String :=
  let lower := trimWs (lowerStr name)
  let candidates := ".m2ts" :: (mediaSidecarExts.filter (· ≠ ".m2ts"))
  match candidates.find? (fun e => endsWithStr lower e) with
  | some e => e
  | none => lowerStr (suffixOfName name)

-- ---------------------------------------------------------------------------
-- name_normalizor.py: reservation-aware planning
-- ---------------------------------------------------------------------------

/-- `key_path`: `str(p).casefold()`, modelled as the ASCII lowercase map. -/
def keyPath (p : String) : String := lowerStr p

/-- `is_same_file` (the `OSError` resolve-comparison fallback is not
modelled; the oracle answers directly). -/
def isSameFile (fs : FS) (a b : String) : Bool :=
  fs.onDisk a && fs.onDisk b && fs.samefile a b

/-- Probe path `f"{target.with_suffix('')} - dup{i}{target.suffix}"`. -/
def dupCandidate (target : String) (i : Nat) : String :=
  withSuffixEmpty target ++ " - dup" ++ toString i ++ suffixOf target

/-- A destination is usable when it neither exists on disk nor is reserved
under its case-normalized key. -/
def collisionFree (fs : FS) (reserved : List String) (p : String) : Bool :=
  !fs.onDisk p && !reserved.contains (keyPath p)

/-- `resolve_collision(target, reserved)` of name_normalizor.py; the nested
`resolve_collision_reserved` of `build_rename_plan` has the identical body
with `reserved` captured by closure.  Returns the resolved path and the
updated reservation set; the `RuntimeError` after 999 failed probes becomes
`Except.error`. -/
def resolveCollision (fs : FS) (target : String) (reserved : List String) :
    Except String (String × List String) :=
  if collisionFree fs reserved target then
    .ok (target, keyPath target :: reserved)
  else
    match probeFrom (fun i => collisionFree fs reserved (dupCandidate target i))
        999 1 with
    | some i =>
      .ok (dupCandidate target i, keyPath (dupCandidate target i) :: reserved)
    | none => .error ("Too many collisions for " ++ target)

/-- `resolve_collision_path` of sort_movies.py: same probe sequence with
on-disk checks only and no reservation set. -/
def resolveCollisionPath (fs : FS) (target : String) : Except String String :=
  if !fs.onDisk target then .ok target
  else
    match probeFrom (fun i => !fs.onDisk (dupCandidate target i)) 999 1 with
    | some i => .ok (dupCandidate target i)
    | none => .error ("Too many file collisions for " ++ target)

/-- `BONUS_DIR_NAME` membership in the path parts (`is_in_bonus_features`). -/
def isInBonusFeatures (p : String) : Bool :=
  (pathParts p).any (fun part => lowerStr part = "bonus_features")

/-- Directory containing a path, without the trailing slash (`Path.parent`
as used for `iterdir`). -/
def parentDir (p : String) : String := ⟨(dirPart p).data.dropLast⟩

/-- `find_sidecars` of name_normalizor.py. -/
def findSidecars (fs : FS) (videoFile : String) : List String :=
  let stem := stemOfName (normalizedNameForExt (pathName videoFile))
  (fs.iterdir (parentDir videoFile)).filter (fun p =>
    fs.isFile p && !isInBonusFeatures p && startsWithStr (pathName p) stem &&
      (suffixesOfName (pathName p)).any
        (fun sfx => sidecarExtsList.contains (lowerStr sfx)))

/-- `RenameItem` records. -/
structure RenameItem where
  original : String
  proposed : String
  action : String
  title : String
  year : String
deriving Repr, DecidableEq

/-- Proposed path of a sidecar: the video's new base plus the sidecar's
name tail after the video's normalized stem
(`sc.with_name(new_base + sc.name[len(video_stem_norm):])`). -/
def proposedSidecarPath (newBase vidStemNorm sc : String) : String :=
  withName sc (newBase ++ ⟨(pathName sc).data.drop vidStemNorm.data.length⟩)

/-- Sidecar sub-loop of `build_rename_plan`, threading the reservation
set. -/
def planSidecars (fs : FS) (includeNoops : Bool)
    (newBase vidStemNorm title yearStr : String) :
    List String → List String → Except String (List RenameItem × List String)
  | [], reserved => .ok ([], reserved)
  | sc :: rest, reserved =>
    let proposedSc := proposedSidecarPath newBase vidStemNorm sc
    if pathName proposedSc = pathName sc then
      planSidecars fs includeNoops newBase vidStemNorm title yearStr rest
        (keyPath proposedSc :: reserved)
    else if fs.onDisk proposedSc ∧ isSameFile fs sc proposedSc then
      match planSidecars fs includeNoops newBase vidStemNorm title yearStr rest
          (keyPath proposedSc :: reserved) with
      | .error msg => .error msg
      | .ok (items, r) =>
        .ok ((if includeNoops then
                [RenameItem.mk sc proposedSc "noop_sidecar" title yearStr]
              else []) ++ items, r)
    else if fs.onDisk proposedSc ∧ !isSameFile fs sc proposedSc then
      match planSidecars fs includeNoops newBase vidStemNorm title yearStr rest
          (keyPath proposedSc :: reserved) with
      | .error msg => .error msg
      | .ok (items, r) =>
        .ok ((if includeNoops then
                [RenameItem.mk sc proposedSc "collision_skip_sidecar" title
                  yearStr]
              else []) ++ items, r)
    else
      match resolveCollision fs proposedSc reserved with
      | .error msg => .error msg
      | .ok (p, r1) =>
        match planSidecars fs includeNoops newBase vidStemNorm title yearStr
            rest r1 with
        | .error msg => .error msg
        | .ok (items, r2) =>
          .ok (RenameItem.mk sc p "rename_sidecar" title yearStr :: items, r2)

/-- Movie Destination Namer: title parsed from the normalized stem. -/
def movieTitle (vid : String) : String :=
  (parseBaseName (stemOfName (normalizedNameForExt (pathName vid)))).1

/-- Movie Destination Namer: year string (`year or ""`). -/
def movieYearStr (vid : String) : String :=
  ((parseBaseName (stemOfName (normalizedNameForExt (pathName vid)))).2).getD ""

/-- Movie Destination Namer: `f"{title} ({year})" if year else title`. -/
def movieNewBase (vid : String) : String :=
  match parseBaseName (stemOfName (normalizedNameForExt (pathName vid))) with
  | (title, some y) => title ++ " (" ++ y ++ ")"
  | (title, none) => title

/-- Desired destination of a video:
`vid.with_name(new_base + effective_suffix)`. -/
def proposedVidPath (vid : String) : String :=
  withName vid
    (movieNewBase vid ++
      effectiveExtensionFromName (normalizedNameForExt (pathName vid)))

/-- Per-video body of the `build_rename_plan` loop: the destination namer,
the three noop/skip checks and the reserve-aware resolution, then the
sidecar pass. -/
def planVideo (fs : FS) (includeNoops : Bool) (vid : String)
    (reserved : List String) :
    Except String (List RenameItem × List String) :=
  let title := movieTitle vid
  let yearStr := movieYearStr vid
  let newBase := movieNewBase vid
  let proposedVid := proposedVidPath vid
  if fs.onDisk proposedVid ∧ isSameFile fs vid proposedVid then
    .ok ((if includeNoops then
            [RenameItem.mk vid proposedVid "noop_video" title yearStr]
          else []), keyPath proposedVid :: reserved)
  else if pathName proposedVid = pathName vid then
    .ok ((if includeNoops then
            [RenameItem.mk vid proposedVid "noop_video" title yearStr]
          else []), keyPath proposedVid :: reserved)
  else if fs.onDisk proposedVid ∧ !isSameFile fs vid proposedVid then
    .ok ((if includeNoops then
            [RenameItem.mk vid proposedVid "collision_skip" title yearStr]
          else []), keyPath proposedVid :: reserved)
  else
    match resolveCollision fs proposedVid reserved with
    | .error msg => .error msg
    | .ok (pv, r1) =>
      match planSidecars fs includeNoops newBase
          (stemOfName (normalizedNameForExt (pathName vid))) title yearStr
          (findSidecars fs vid) r1 with
      | .error msg => .error msg
      | .ok (items, r2) =>
        .ok (RenameItem.mk vid pv "rename_video" title yearStr :: items, r2)

/-- Video loop of `build_rename_plan`, threading the reservation set. -/
def buildRenamePlanGo (fs : FS) (includeNoops : Bool) :
    List String → List String → Except String (List RenameItem × List String)
  | [], reserved => .ok ([], reserved)
  | vid :: rest, reserved =>
    match planVideo fs includeNoops vid reserved with
    | .error msg => .error msg
    | .ok (items, r1) =>
      match buildRenamePlanGo fs includeNoops rest r1 with
      | .error msg => .error msg
      | .ok (more, r2) => .ok (items ++ more, r2)

/-- `build_rename_plan` (the interactive menu calls it with the default
`include_noops=False`). -/
def buildRenamePlan (fs : FS) (videoFiles : List String)
    (includeNoops : Bool) : Except String (List RenameItem) :=
  match buildRenamePlanGo fs includeNoops videoFiles [] with
  | .error msg => .error msg
  | .ok (plan, _) => .ok plan

-- ---------------------------------------------------------------------------
-- name_normalizor.py: apply_plan
-- ---------------------------------------------------------------------------

/-- Outcome of one `item.original.rename(item.proposed)` attempt. -/
inductive ExcRes
  | renamed
  | permErr
  | unexpectedErr
deriving Repr, DecidableEq

/-- User decision at the PermissionError prompt (anything other than the
recognized keys retries, like pressing Enter). -/
inductive PermChoice
  | skipFile
  | quitAll
  | unlockOne
  | unlockAll
  | retryMove
deriving Repr, DecidableEq

/-- Result of processing one plan item. -/
inductive ItemOutcome
  | renamed
  | skippedError
  | skippedUser
  | quitApply
  | stuck
deriving Repr, DecidableEq

/-- Oracles for `apply_plan`: the rename outcome, the `has_uchg` probe, the
success of an automatic `sudo_unlock` round trip, and the interactive
choice, all per item and per loop iteration. -/
structure ApplyEnv where
  renameRes : RenameItem → Nat → ExcRes
  lockedAt : RenameItem → Nat → Bool
  autoUnlockWorks : RenameItem → Nat → Bool
  choiceAt : RenameItem → Nat → PermChoice

/-- Inner `while True` retry loop of `apply_plan` for one item.  `fuel`
bounds the number of iterations (`stuck` models an endless retry dialogue);
the Boolean is the `auto_unlock` flag, returned so it persists across
items. -/
def itemLoop (env : ApplyEnv) (item : RenameItem) :
    Nat → Nat → Bool → ItemOutcome × Bool
  | 0, _, au => (.stuck, au)
  | fuel + 1, k, au =>
    match env.renameRes item k with
    | .renamed => (.renamed, au)
    | .unexpectedErr => (.skippedError, au)
    | .permErr =>
      let locked := env.lockedAt item k
      if locked ∧ au ∧ env.autoUnlockWorks item k then
        itemLoop env item fuel (k + 1) au
      else
        match env.choiceAt item k with
        | .skipFile => (.skippedUser, au)
        | .quitAll => (.quitApply, au)
        | .unlockOne => itemLoop env item fuel (k + 1) au
        | .unlockAll =>
          if locked then itemLoop env item fuel (k + 1) true
          else itemLoop env item fuel (k + 1) au
        | .retryMove => itemLoop env item fuel (k + 1) au

/-- Outer loop of `apply_plan` over the ordered items, threading the
`auto_unlock` flag; `q` returns from the function, ending the trace. -/
def applyGo (env : ApplyEnv) (fuel : Nat) :
    List RenameItem → Bool → Option (List (RenameItem × ItemOutcome))
  | [], _ => some []
  | it :: rest, au =>
    match itemLoop env it fuel 0 au with
    | (.stuck, _) => none
    | (.quitApply, _) => some [(it, .quitApply)]
    | (out, au2) =>
      match applyGo env fuel rest au2 with
      | none => none
      | some tr => some ((it, out) :: tr)

/-- `apply_plan`: sidecar renames first, then video renames. -/
def applyPlan (env : ApplyEnv) (fuel : Nat) (plan : List RenameItem) :
    Option (List (RenameItem × ItemOutcome)) :=
  applyGo env fuel
    (plan.filter (fun x => x.action = "rename_sidecar") ++
      plan.filter (fun x => x.action = "rename_video")) false

-- ---------------------------------------------------------------------------
-- Concrete filesystem configurations used by counterexamples and witnesses
-- ---------------------------------------------------------------------------

/-- Show directory holding two files that tokenize to the same episode
identity; nothing else on disk. -/
def showDupFS : FS :=
  { onDisk := fun p =>
      p = "/tv/Show/Show S01E02.mkv" || p = "/tv/Show/Show.S01E02.mkv"
    samefile := fun a b => a = b
    entries := ["/tv/Show/Show S01E02.mkv", "/tv/Show/Show.S01E02.mkv"]
    isFile := fun p =>
      p = "/tv/Show/Show S01E02.mkv" || p = "/tv/Show/Show.S01E02.mkv" }

/-- Sorted recursive listing of `/tv/Show` for `showDupFS`. -/
def showDupFiles : List String :=
  ["/tv/Show/Show S01E02.mkv", "/tv/Show/Show.S01E02.mkv"]

/-- Show directory holding one file that is already canonically named and
already sits in its season folder. -/
def showCanonFS : FS :=
  { onDisk := fun p => p = "/tv/Show/Season 01/Show - S01E02.mkv"
    samefile := fun a b => a = b
    entries := ["/tv/Show/Season 01/Show - S01E02.mkv"]
    isFile := fun p => p = "/tv/Show/Season 01/Show - S01E02.mkv" }

/-- Movie directory holding one canonically named video. -/
def movieCanonFS : FS :=
  { onDisk := fun p => p = "/m/The Matrix (1999).mkv"
    samefile := fun a b => a = b
    entries := ["/m/The Matrix (1999).mkv"]
    isFile := fun p => p = "/m/The Matrix (1999).mkv" }

/-- Movie directory with two videos of different origin whose desired
destination coincides. -/
def movieDupFS : FS :=
  { onDisk := fun p => p = "/m/Movie (1).mkv" || p = "/m/Movie.mkv"
    samefile := fun a b => a = b
    entries := ["/m/Movie (1).mkv", "/m/Movie.mkv"]
    isFile := fun _ => true }

/-- Empty filesystem oracle. -/
def emptyFS : FS :=
  { onDisk := fun _ => false
    samefile := fun _ _ => false
    entries := []
    isFile := fun _ => false }

-- ---------------------------------------------------------------------------
-- Claim theorems
-- ---------------------------------------------------------------------------

/-- C3, code evaluation at the failing input.  The token `1x02` matches the
alternate season/episode form `RE_XXxYY` (second conjunct), yet
`classify_tokens` drops it through the `looks_like_tag` branch that the
source tests before `if m:`, leaving season and episode unset — the file is
reported unparseable instead of season 1, episode 2. -/
theorem alternate_form_token_dropped_as_tag :
    classifyTokens ["Show", "1x02"] =
      ClassifyRes.mk none none ["Show"] ["1x02"] ∧
    parseXXxYY (lowerStr "1x02") = some (1, 2) := by
  decide

/-- C4, counterexample.  With two compact-form tokens, `classify_tokens`
returns the season/episode of the last one (3, 4): the claim's prediction
of the first occurrence (1, 2) is false, because each match overwrites the
previous values. -/
theorem classify_tokens_first_sxxeyy_not_kept :
    (classifyTokens ["s01e02", "s03e04"]).season = some 3 ∧
    (classifyTokens ["s01e02", "s03e04"]).episode = some 4 ∧
    ¬ ((classifyTokens ["s01e02", "s03e04"]).season = some 1 ∧
        (classifyTokens ["s01e02", "s03e04"]).episode = some 2) := by
  decide

/-- C7, counterexample.  `ensure_single_extension` strips only one trailing
recognized extension, so a base already carrying two stacked extensions
still yields a destination ending in two concatenated recognized media
extensions. -/
theorem ensure_single_extension_double_ext :
    ensureSingleExtension "Rabbit.avi.avi" "/x/Rabbit.avi" = "Rabbit.avi.avi" ∧
    endsWithStr (lowerStr (ensureSingleExtension "Rabbit.avi.avi" "/x/Rabbit.avi"))
      (".avi" ++ ".avi") = true ∧
    videoExtsList.contains ".avi" = true := by
  decide

/-- C10, counterexample.  On a name with two dotted suffixes,
`normalize_dupe_name` re-appends the joined suffixes to a stem that still
contains the first of them, so a second application grows the name again:
`"a.b.c"` maps to `"a.b.b.c"` and then to `"a.b.b.b.b.c"`. -/
theorem normalize_dupe_name_not_idempotent :
    normalizeDupeName (normalizeDupeName "a.b.c") ≠ normalizeDupeName "a.b.c" := by
  decide

/-- C2, evaluation at the failing input.  First conjunct (name_normalizor):
a video already named canonically produces no plan item while its
destination key is reserved — here the claim holds.  Second conjunct
(show_name_normal): an already canonical episode file sitting in its season
folder is planned to be renamed to a `- dup1` sibling, because
`resolve_collision` sees the source file itself on disk at the desired
destination and there is no same-file check — the code contradicts the
claimed no-op. -/
theorem already_canonical_noop_vs_show_dup1 :
    planVideo movieCanonFS false "/m/The Matrix (1999).mkv" [] =
      .ok ([], ["/m/the matrix (1999).mkv"]) ∧
    buildPlanForShowDir showCanonFS ["/tv/Show/Season 01/Show - S01E02.mkv"]
        "/tv/Show" "Show" =
      .ok [Move.mk "/tv/Show/Season 01/Show - S01E02.mkv"
            "/tv/Show/Season 01/Show - S01E02 - dup1.mkv"] := by
  exact ⟨rfl, rfl⟩

/-- C1, counterexample.  In `build_plan_for_show_dir` two distinct source
files that derive the same destination are both planned onto it (the show
resolver has no reservation set), so the emitted plan violates pairwise
distinctness of destination paths even case-sensitively. -/
theorem build_plan_for_show_dir_duplicate_dest :
    ¬ (∀ plan,
        buildPlanForShowDir showDupFS showDupFiles "/tv/Show" "Show" =
          Except.ok plan →
        plan.Pairwise (fun a b => keyPath a.dst ≠ keyPath b.dst)) := by
  intro h
  have e : buildPlanForShowDir showDupFS showDupFiles "/tv/Show" "Show" =
      Except.ok
        [Move.mk "/tv/Show/Show S01E02.mkv"
          "/tv/Show/Season 01/Show - S01E02.mkv",
         Move.mk "/tv/Show/Show.S01E02.mkv"
          "/tv/Show/Season 01/Show - S01E02.mkv"] := by
    rfl
  have h2 := h _ e
  rw [List.pairwise_cons] at h2
  exact h2.1 _ (List.mem_cons_self _ _) rfl

-- ---------------------------------------------------------------------------
-- Probe-loop lemmas
-- ---------------------------------------------------------------------------

theorem probeFrom_eq_some {pred : Nat → Bool} :
    ∀ {fuel i j : Nat}, probeFrom pred fuel i = some j →
      i ≤ j ∧ j < i + fuel ∧ pred j = true ∧
        ∀ k, i ≤ k → k < j → pred k = false := by
  intro fuel
  induction fuel with
  | zero => intro i j h; simp [probeFrom] at h
  | succ n ih =>
    intro i j h
    rw [probeFrom] at h
    by_cases hp : pred i = true
    · simp [hp] at h
      subst h
      exact ⟨le_refl _, by omega, hp, fun k hk1 hk2 => absurd hk1 (by omega)⟩
    · simp [hp] at h
      obtain ⟨h1, h2, h3, h4⟩ := ih h
      refine ⟨by omega, by omega, h3, ?_⟩
      intro k hk1 hk2
      rcases Nat.eq_or_lt_of_le hk1 with he | hl
      · subst he; simpa using hp
      · exact h4 k (by omega) hk2

theorem probeFrom_eq_none {pred : Nat → Bool} :
    ∀ {fuel i : Nat}, probeFrom pred fuel i = none →
      ∀ k, i ≤ k → k < i + fuel → pred k = false := by
  intro fuel
  induction fuel with
  | zero => intro i h k hk1 hk2; omega
  | succ n ih =>
    intro i h k hk1 hk2
    rw [probeFrom] at h
    by_cases hp : pred i = true
    · simp [hp] at h
    · simp [hp] at h
      rcases Nat.eq_or_lt_of_le hk1 with he | hl
      · subst he; simpa using hp
      · exact ih h k (by omega) (by omega)

theorem probeFrom_none_of_all {pred : Nat → Bool} :
    ∀ {fuel i : Nat}, (∀ k, i ≤ k → k < i + fuel → pred k = false) →
      probeFrom pred fuel i = none := by
  intro fuel
  induction fuel with
  | zero => intro i _; rfl
  | succ n ih =>
    intro i h
    rw [probeFrom]
    have hp : pred i = false := h i (le_refl _) (by omega)
    simp [hp]
    exact ih (fun k hk1 hk2 => h k (by omega) (by omega))

/-- C5.  Contract of the collision resolver.  For the reservation-aware
`resolve_collision` of name_normalizor.py: a desired path that neither
exists on disk nor is reserved (case-insensitively) is reserved and returned
unchanged; otherwise any returned path is the first probe
`"<stem> - dup<N><ext>"` (N = 1, 2, 3, …, at most 999) that is neither
on disk nor reserved, and it gets reserved; if all 999 probes fail the
resolver raises instead of looping.  The last two conjuncts state the same
contract for `resolve_collision_path` of sort_movies.py, whose checks are
on-disk only. -/
theorem resolve_collision_spec (fs : FS) (reserved : List String)
    (target : String) :
    (collisionFree fs reserved target = true →
      resolveCollision fs target reserved =
        Except.ok (target, keyPath target :: reserved)) ∧
    (collisionFree fs reserved target = false →
      (∀ p r', resolveCollision fs target reserved = Except.ok (p, r') →
        ∃ n, 1 ≤ n ∧ n ≤ 999 ∧ p = dupCandidate target n ∧
          collisionFree fs reserved (dupCandidate target n) = true ∧
          r' = keyPath (dupCandidate target n) :: reserved ∧
          ∀ k, 1 ≤ k → k < n →
            collisionFree fs reserved (dupCandidate target k) = false) ∧
      ((∀ k, 1 ≤ k → k ≤ 999 →
          collisionFree fs reserved (dupCandidate target k) = false) →
        resolveCollision fs target reserved =
          Except.error ("Too many collisions for " ++ target))) ∧
    (fs.onDisk target = false → resolveCollisionPath fs target = Except.ok target) ∧
    (fs.onDisk target = true →
      (∀ p, resolveCollisionPath fs target = Except.ok p →
        ∃ n, 1 ≤ n ∧ n ≤ 999 ∧ p = dupCandidate target n ∧
          fs.onDisk (dupCandidate target n) = false ∧
          ∀ k, 1 ≤ k → k < n → fs.onDisk (dupCandidate target k) = true) ∧
      ((∀ k, 1 ≤ k → k ≤ 999 → fs.onDisk (dupCandidate target k) = true) →
        resolveCollisionPath fs target =
          Except.error ("Too many file collisions for " ++ target))) := by
  refine ⟨?_, ?_, ?_, ?_⟩
  · intro h
    rw [resolveCollision, h]
    simp
  · intro h
    constructor
    · intro p r' hok
      rw [resolveCollision, h] at hok
      simp at hok
      rcases hprobe : probeFrom
          (fun i => collisionFree fs reserved (dupCandidate target i)) 999 1 with
        _ | n
      · rw [hprobe] at hok; simp at hok
      · rw [hprobe] at hok
        simp at hok
        obtain ⟨h1, h2, h3, h4⟩ := probeFrom_eq_some hprobe
        exact ⟨n, h1, by omega, hok.1.symm, h3, hok.2.symm,
          fun k hk1 hk2 => h4 k hk1 hk2⟩
    · intro hall
      rw [resolveCollision, h]
      simp
      rw [probeFrom_none_of_all
        (fun k hk1 hk2 => hall k hk1 (by omega))]
  · intro h
    rw [resolveCollisionPath, h]
    simp
  · intro h
    constructor
    · intro p hok
      rw [resolveCollisionPath, h] at hok
      simp at hok
      rcases hprobe : probeFrom
          (fun i => !fs.onDisk (dupCandidate target i)) 999 1 with _ | n
      · rw [hprobe] at hok; simp at hok
      · rw [hprobe] at hok
        simp at hok
        obtain ⟨h1, h2, h3, h4⟩ := probeFrom_eq_some hprobe
        refine ⟨n, h1, by omega, hok.symm, by simpa using h3, ?_⟩
        intro k hk1 hk2
        have := h4 k hk1 hk2
        simpa using this
    · intro hall
      rw [resolveCollisionPath, h]
      simp
      rw [probeFrom_none_of_all ?_]
      intro k hk1 hk2
      simp
      exact hall k hk1 (by omega)

/-- Witness for C5: a fresh destination is returned unchanged and reserved
(first conjunct applied on an empty filesystem), and an occupied destination
resolves to some first free `- dupN` probe (fourth conjunct applied on the
occupied show folder). -/
theorem resolve_collision_spec_witness :
    resolveCollision emptyFS "/m/a.mkv" [] =
      Except.ok ("/m/a.mkv", ["/m/a.mkv"]) ∧
    (∃ n, 1 ≤ n ∧ n ≤ 999 ∧
      "/tv/Show/Season 01/Show - S01E02 - dup1.mkv" =
        dupCandidate "/tv/Show/Season 01/Show - S01E02.mkv" n ∧
      showCanonFS.onDisk
        (dupCandidate "/tv/Show/Season 01/Show - S01E02.mkv" n) = false ∧
      ∀ k, 1 ≤ k → k < n →
        showCanonFS.onDisk
          (dupCandidate "/tv/Show/Season 01/Show - S01E02.mkv" k) = true) := by
  constructor
  · exact (resolve_collision_spec emptyFS [] "/m/a.mkv").1 (by decide)
  · exact ((resolve_collision_spec showCanonFS []
      "/tv/Show/Season 01/Show - S01E02.mkv").2.2.2 (by decide)).1 _ (by rfl)


-- ---------------------------------------------------------------------------
-- Reservation invariants of build_rename_plan
-- ---------------------------------------------------------------------------

theorem contains_false_iff {r : List String} {k : String} :
    r.contains k = false ↔ k ∉ r := by
  simp

theorem resolveCollision_ok_inv {fs : FS} {t : String} {r : List String}
    {p : String} {r' : List String}
    (h : resolveCollision fs t r = Except.ok (p, r')) :
    keyPath p ∉ r ∧ r' = keyPath p :: r := by
  rw [resolveCollision] at h
  split at h
  · next hfree =>
    simp at h
    obtain ⟨rfl, rfl⟩ := h
    simp [collisionFree] at hfree
    exact ⟨hfree.2, rfl⟩
  · next hfree =>
    split at h
    · next n hprobe =>
      simp at h
      obtain ⟨rfl, rfl⟩ := h
      obtain ⟨-, -, hcand, -⟩ := probeFrom_eq_some hprobe
      simp [collisionFree] at hcand
      exact ⟨hcand.2, rfl⟩
    · exact absurd h (by simp)

/-- Reservation invariant of the sidecar sub-loop (with `include_noops`
off): the reservation set only grows, every emitted destination key is newly
reserved, and the emitted destinations are pairwise distinct
case-insensitively. -/
theorem planSidecars_inv (fs : FS) (nb vsn t y : String) :
    ∀ (scs : List String) (r : List String) (items : List RenameItem)
      (r' : List String),
      planSidecars fs false nb vsn t y scs r = Except.ok (items, r') →
      ((∀ k, k ∈ r → k ∈ r') ∧
        (∀ it ∈ items, keyPath it.proposed ∈ r' ∧ keyPath it.proposed ∉ r) ∧
        items.Pairwise (fun a b => keyPath a.proposed ≠ keyPath b.proposed)) := by
  intro scs
  induction scs with
  | nil =>
    intro r items r' h
    simp [planSidecars] at h
    obtain ⟨rfl, rfl⟩ := h
    exact ⟨fun k hk => hk, by simp, by simp⟩
  | cons sc rest ih =>
    intro r items r' h
    rw [planSidecars] at h
    split at h
    · obtain ⟨hgrow, hkeys, hpw⟩ := ih _ _ _ h
      refine ⟨fun k hk => hgrow k (List.mem_cons_of_mem _ hk), ?_, hpw⟩
      intro it hit
      obtain ⟨h1, h2⟩ := hkeys it hit
      exact ⟨h1, fun hc => h2 (List.mem_cons_of_mem _ hc)⟩
    · split at h
      · split at h
        · exact absurd h (by simp)
        · next items1 r1 hrec =>
          simp at h
          obtain ⟨rfl, rfl⟩ := h
          obtain ⟨hgrow, hkeys, hpw⟩ := ih _ _ _ hrec
          refine ⟨fun k hk => hgrow k (List.mem_cons_of_mem _ hk), ?_, hpw⟩
          intro it hit
          obtain ⟨h1, h2⟩ := hkeys it hit
          exact ⟨h1, fun hc => h2 (List.mem_cons_of_mem _ hc)⟩
      · split at h
        · split at h
          · exact absurd h (by simp)
          · next items1 r1 hrec =>
            simp at h
            obtain ⟨rfl, rfl⟩ := h
            obtain ⟨hgrow, hkeys, hpw⟩ := ih _ _ _ hrec
            refine ⟨fun k hk => hgrow k (List.mem_cons_of_mem _ hk), ?_, hpw⟩
            intro it hit
            obtain ⟨h1, h2⟩ := hkeys it hit
            exact ⟨h1, fun hc => h2 (List.mem_cons_of_mem _ hc)⟩
        · split at h
          · exact absurd h (by simp)
          · next p r1 hres =>
            split at h
            · exact absurd h (by simp)
            · next items1 r2 hrec =>
              simp at h
              obtain ⟨rfl, rfl⟩ := h
              obtain ⟨hnew, rfl⟩ := resolveCollision_ok_inv hres
              obtain ⟨hgrow, hkeys, hpw⟩ := ih _ _ _ hrec
              refine ⟨?_, ?_, ?_⟩
              · intro k hk
                exact hgrow k (List.mem_cons_of_mem _ hk)
              · intro it hit
                rcases List.mem_cons.mp hit with rfl | hmem
                · exact ⟨hgrow _ (List.mem_cons_self _ _), hnew⟩
                · obtain ⟨h1, h2⟩ := hkeys it hmem
                  exact ⟨h1, fun hc => h2 (List.mem_cons_of_mem _ hc)⟩
              · rw [List.pairwise_cons]
                refine ⟨?_, hpw⟩
                intro b hb heq
                obtain ⟨-, h2⟩ := hkeys b hb
                rw [← heq] at h2
                exact h2 (List.mem_cons_self _ _)

/-- Reservation invariant of the per-video planning step (with
`include_noops` off). -/
theorem planVideo_inv (fs : FS) :
    ∀ (vid : String) (r : List String) (items : List RenameItem)
      (r' : List String),
      planVideo fs false vid r = Except.ok (items, r') →
      ((∀ k, k ∈ r → k ∈ r') ∧
        (∀ it ∈ items, keyPath it.proposed ∈ r' ∧ keyPath it.proposed ∉ r) ∧
        items.Pairwise (fun a b => keyPath a.proposed ≠ keyPath b.proposed)) := by
  intro vid r items r' h
  rw [planVideo] at h
  split at h
  · simp at h
    obtain ⟨rfl, rfl⟩ := h
    exact ⟨fun k hk => List.mem_cons_of_mem _ hk, by simp, by simp⟩
  · split at h
    · simp at h
      obtain ⟨rfl, rfl⟩ := h
      exact ⟨fun k hk => List.mem_cons_of_mem _ hk, by simp, by simp⟩
    · split at h
      · simp at h
        obtain ⟨rfl, rfl⟩ := h
        exact ⟨fun k hk => List.mem_cons_of_mem _ hk, by simp, by simp⟩
      · split at h
        · exact absurd h (by simp)
        · next pv r1 hres =>
          split at h
          · exact absurd h (by simp)
          · next items1 r2 hrec =>
            simp at h
            obtain ⟨rfl, rfl⟩ := h
            obtain ⟨hnew, rfl⟩ := resolveCollision_ok_inv hres
            obtain ⟨hgrow, hkeys, hpw⟩ :=
              planSidecars_inv fs _ _ _ _ _ _ _ _ hrec
            refine ⟨?_, ?_, ?_⟩
            · intro k hk
              exact hgrow k (List.mem_cons_of_mem _ hk)
            · intro it hit
              rcases List.mem_cons.mp hit with rfl | hmem
              · exact ⟨hgrow _ (List.mem_cons_self _ _), hnew⟩
              · obtain ⟨h1, h2⟩ := hkeys it hmem
                exact ⟨h1, fun hc => h2 (List.mem_cons_of_mem _ hc)⟩
            · rw [List.pairwise_cons]
              refine ⟨?_, hpw⟩
              intro b hb heq
              obtain ⟨-, h2⟩ := hkeys b hb
              rw [← heq] at h2
              exact h2 (List.mem_cons_self _ _)

/-- Reservation invariant of the whole video loop (with `include_noops`
off). -/
theorem buildRenamePlanGo_inv (fs : FS) :
    ∀ (vids : List String) (r : List String) (items : List RenameItem)
      (r' : List String),
      buildRenamePlanGo fs false vids r = Except.ok (items, r') →
      ((∀ k, k ∈ r → k ∈ r') ∧
        (∀ it ∈ items, keyPath it.proposed ∈ r' ∧ keyPath it.proposed ∉ r) ∧
        items.Pairwise (fun a b => keyPath a.proposed ≠ keyPath b.proposed)) := by
  intro vids
  induction vids with
  | nil =>
    intro r items r' h
    simp [buildRenamePlanGo] at h
    obtain ⟨rfl, rfl⟩ := h
    exact ⟨fun k hk => hk, by simp, by simp⟩
  | cons vid rest ih =>
    intro r items r' h
    rw [buildRenamePlanGo] at h
    split at h
    · exact absurd h (by simp)
    · next items1 r1 hstep =>
      split at h
      · exact absurd h (by simp)
      · next items2 r2 hrec =>
        simp at h
        obtain ⟨rfl, rfl⟩ := h
        obtain ⟨hgrow1, hkeys1, hpw1⟩ := planVideo_inv fs _ _ _ _ hstep
        obtain ⟨hgrow2, hkeys2, hpw2⟩ := ih _ _ _ hrec
        refine ⟨fun k hk => hgrow2 k (hgrow1 k hk), ?_, ?_⟩
        · intro it hit
          rcases List.mem_append.mp hit with hmem | hmem
          · obtain ⟨h1, h2⟩ := hkeys1 it hmem
            exact ⟨hgrow2 _ h1, h2⟩
          · obtain ⟨h1, h2⟩ := hkeys2 it hmem
            exact ⟨h1, fun hc => h2 (hgrow1 _ hc)⟩
        · rw [List.pairwise_append]
          refine ⟨hpw1, hpw2, ?_⟩
          intro a ha b hb heq
          obtain ⟨ha1, -⟩ := hkeys1 a ha
          obtain ⟨-, hb2⟩ := hkeys2 b hb
          rw [← heq] at hb2
          exact hb2 ha1

/-- C1, amended.  In `build_rename_plan` (called, as in the program, with
`include_noops=False`) no two actions of the emitted plan have an equal
destination path under the case-insensitive reservation key, for every
filesystem and every input list of video files.  (The claim as stated also
covered `build_plan_for_show_dir`, which lacks this guarantee — see the
counterexample.) -/
theorem build_rename_plan_destinations_unique (fs : FS)
    (videos : List String) (plan : List RenameItem)
    (h : buildRenamePlan fs videos false = Except.ok plan) :
    plan.Pairwise (fun a b => keyPath a.proposed ≠ keyPath b.proposed) := by
  rw [buildRenamePlan] at h
  split at h
  · exact absurd h (by simp)
  · next p r hgo =>
    simp at h
    subst h
    exact (buildRenamePlanGo_inv fs _ _ _ _ hgo).2.2

/-- Witness for C1: the theorem applied to a concrete two-movie scan whose
computed plan is evaluated by `rfl`. -/
theorem build_rename_plan_destinations_unique_witness :
    [RenameItem.mk "/m/Movie (1).mkv" "/m/Movie 1.mkv" "rename_video"
      "Movie 1" ""].Pairwise
      (fun a b => keyPath a.proposed ≠ keyPath b.proposed) :=
  build_rename_plan_destinations_unique movieDupFS
    ["/m/Movie (1).mkv", "/m/Movie.mkv"] _ (by rfl)

-- ---------------------------------------------------------------------------
-- Character-level lemmas for the case maps
-- ---------------------------------------------------------------------------

theorem charOfNat_toNat (n : Nat) (h : n.isValidChar) :
    (Char.ofNat n).toNat = n := by
  simp [Char.ofNat, h, Char.ofNatAux, Char.toNat, UInt32.toNat, UInt32.ofNat']

theorem char_le_iff {a b : Char} : a ≤ b ↔ a.toNat ≤ b.toNat := Iff.rfl

theorem char_eq_iff {a b : Char} : a = b ↔ a.toNat = b.toNat := by
  constructor
  · intro h; rw [h]
  · intro h; exact Char.eq_of_val_eq (UInt32.ext h)

theorem lowerChar_toNat (c : Char) :
    (lowerChar c).toNat =
      if 65 ≤ c.toNat ∧ c.toNat ≤ 90 then c.toNat + 32 else c.toNat := by
  rw [lowerChar]
  by_cases h : 'A' ≤ c ∧ c ≤ 'Z'
  · have h' : 65 ≤ c.toNat ∧ c.toNat ≤ 90 :=
      ⟨char_le_iff.mp h.1, char_le_iff.mp h.2⟩
    rw [if_pos h, if_pos h', charOfNat_toNat]
    constructor
    omega
  · have h' : ¬(65 ≤ c.toNat ∧ c.toNat ≤ 90) := by
      intro hc
      exact h ⟨char_le_iff.mpr hc.1, char_le_iff.mpr hc.2⟩
    rw [if_neg h, if_neg h']

theorem upperChar_toNat (c : Char) :
    (upperChar c).toNat =
      if 97 ≤ c.toNat ∧ c.toNat ≤ 122 then c.toNat - 32 else c.toNat := by
  rw [upperChar]
  by_cases h : 'a' ≤ c ∧ c ≤ 'z'
  · have h' : 97 ≤ c.toNat ∧ c.toNat ≤ 122 :=
      ⟨char_le_iff.mp h.1, char_le_iff.mp h.2⟩
    rw [if_pos h, if_pos h', charOfNat_toNat]
    constructor
    omega
  · have h' : ¬(97 ≤ c.toNat ∧ c.toNat ≤ 122) := by
      intro hc
      exact h ⟨char_le_iff.mpr hc.1, char_le_iff.mpr hc.2⟩
    rw [if_neg h, if_neg h']

theorem isDigitChar_iff {c : Char} :
    isDigitChar c = true ↔ 48 ≤ c.toNat ∧ c.toNat ≤ 57 := by
  simp [isDigitChar, char_le_iff]

theorem isDigitChar_lowerChar (c : Char) :
    isDigitChar (lowerChar c) = isDigitChar c := by
  by_cases h : isDigitChar c = true
  · have hd := isDigitChar_iff.mp h
    have he : (lowerChar c).toNat = c.toNat := by
      rw [lowerChar_toNat, if_neg (by omega)]
    rw [h, isDigitChar_iff.mpr (by omega)]
  · simp only [Bool.not_eq_true] at h
    rw [h]
    by_contra hc
    simp only [Bool.not_eq_false] at hc
    have hd := isDigitChar_iff.mp hc
    rw [lowerChar_toNat] at hd
    split at hd
    · omega
    · rw [isDigitChar_iff.mpr (by omega)] at h
      cases h

theorem isWsChar_iff {c : Char} :
    isWsChar c = true ↔
      c.toNat = 32 ∨ c.toNat = 9 ∨ c.toNat = 10 ∨ c.toNat = 13 ∨
      c.toNat = 11 ∨ c.toNat = 12 := by
  simp [isWsChar, char_eq_iff]
  tauto

theorem isWsChar_lowerChar (c : Char) :
    isWsChar (lowerChar c) = isWsChar c := by
  by_cases h : isWsChar c = true
  · have hd := isWsChar_iff.mp h
    have he : (lowerChar c).toNat = c.toNat := by
      rw [lowerChar_toNat, if_neg (by omega)]
    rw [h, isWsChar_iff.mpr (by omega)]
  · simp only [Bool.not_eq_true] at h
    rw [h]
    by_contra hc
    simp only [Bool.not_eq_false] at hc
    have hd := isWsChar_iff.mp hc
    rw [lowerChar_toNat] at hd
    split at hd
    · omega
    · rw [isWsChar_iff.mpr (by omega)] at h
      cases h

theorem parseXXxYY_some_inv {low : String} {p : Nat × Nat}
    (h : parseXXxYY low = some p) :
    ∃ ds1 ds2, low.data = ds1 ++ 'x' :: ds2 ∧
      1 ≤ ds1.length ∧ ds1.length ≤ 2 ∧ 1 ≤ ds2.length ∧ ds2.length ≤ 3 ∧
      (∀ c ∈ ds1, isDigitChar c = true) ∧ (∀ c ∈ ds2, isDigitChar c = true) := by
  rw [parseXXxYY] at h
  simp only [spanNot, Bool.not_not] at h
  split at h
  · next hlen =>
    split at h
    · next r2 heq =>
      split at h
      · next hcond =>
        refine ⟨low.data.takeWhile (fun c => isDigitChar c),
          r2.takeWhile (fun c => isDigitChar c), ?_, hlen.1, hlen.2,
          hcond.1, hcond.2.1, ?_, ?_⟩
        · have h1 := List.takeWhile_append_dropWhile
            (p := fun c => isDigitChar c) (l := low.data)
          have h2 := List.takeWhile_append_dropWhile
            (p := fun c => isDigitChar c) (l := r2)
          rw [hcond.2.2, List.append_nil] at h2
          rw [h2, ← heq, h1]
        · intro c hc
          exact List.mem_takeWhile_imp hc
        · intro c hc
          exact List.mem_takeWhile_imp hc
      · exact absurd h (by simp)
    · exact absurd h (by simp)
  · exact absurd h (by simp)

theorem trimWsL_eq_self {cs : List Char}
    (h : ∀ c ∈ cs, isWsChar c = false) : trimWsL cs = cs := by
  have k1 : ∀ (l : List Char), (∀ c ∈ l, isWsChar c = false) →
      l.dropWhile isWsChar = l := by
    intro l hl
    cases l with
    | nil => rfl
    | cons c rest => simp [List.dropWhile_cons, hl c (List.mem_cons_self _ _)]
  rw [trimWsL, k1 _ h, k1, List.reverse_reverse]
  intro c hc
  exact h c (List.mem_reverse.mp hc)

/-- Every token matched by the alternate season/episode form `RE_XXxYY` also
satisfies `looks_like_tag` (it contains a digit and is at most six
characters) and is not in the short-word allow list — so in
`classify_tokens` the tag branch, tested before `if m:`, always consumes
such tokens and the alternate-form branch is dead code. -/
theorem looksLikeTag_of_parseXXxYY {tok : String} {p : Nat × Nat}
    (h : parseXXxYY (lowerStr tok) = some p) :
    looksLikeTag tok = true ∧ keepShortWords.contains (lowerStr tok) = false := by
  obtain ⟨ds1, ds2, hdecomp, h11, h12, h21, h23, hd1, hd2⟩ :=
    parseXXxYY_some_inv h
  have hmap : (lowerStr tok).data = tok.data.map lowerChar := rfl
  have hlen : tok.data.length = ds1.length + 1 + ds2.length := by
    have hcg := congrArg List.length hdecomp
    rw [hmap] at hcg
    simp at hcg
    have hsl : tok.length = tok.data.length := rfl
    omega
  have hdig : tok.data.any isDigitChar = true := by
    obtain ⟨d, hd_mem⟩ : ∃ d, d ∈ ds1 := by
      cases ds1 with
      | nil => simp at h11
      | cons a l => exact ⟨a, List.mem_cons_self _ _⟩
    have hdin : d ∈ (lowerStr tok).data := by
      rw [hdecomp]
      exact List.mem_append_left _ hd_mem
    rw [hmap] at hdin
    obtain ⟨c, hc_mem, hc_eq⟩ := List.mem_map.mp hdin
    have hcd : isDigitChar c = true := by
      rw [← isDigitChar_lowerChar, hc_eq]
      exact hd1 d hd_mem
    exact List.any_eq_true.mpr ⟨c, hc_mem, hcd⟩
  have hnws : ∀ c ∈ tok.data, isWsChar c = false := by
    intro c hc
    have hin : lowerChar c ∈ (lowerStr tok).data := by
      rw [hmap]
      exact List.mem_map_of_mem _ hc
    rw [hdecomp] at hin
    rw [← isWsChar_lowerChar c]
    rcases List.mem_append.mp hin with hA | hB
    · have hr := isDigitChar_iff.mp (hd1 _ hA)
      by_contra hw
      simp only [Bool.not_eq_false] at hw
      have := isWsChar_iff.mp hw
      omega
    · rcases List.mem_cons.mp hB with hx | hB2
      · rw [hx]
        decide
      · have hr := isDigitChar_iff.mp (hd2 _ hB2)
        by_contra hw
        simp only [Bool.not_eq_false] at hw
        have := isWsChar_iff.mp hw
        omega
  have htrim : trimWs tok = tok := by
    have := trimWsL_eq_self hnws
    rw [trimWs, this]
  have hne : ¬(tok.data = []) := by
    intro hnil
    rw [hnil] at hlen
    simp at hlen
    omega
  have hkeep : keepShortWords.contains (lowerStr tok) = false := by
    by_contra hc
    simp only [Bool.not_eq_false] at hc
    replace hc : lowerStr tok ∈ keepShortWords := by simpa using hc
    have hnodig : ∀ w ∈ keepShortWords, w.data.any isDigitChar = false := by
      decide
    have hw := hnodig _ hc
    obtain ⟨d, hd_mem⟩ : ∃ d, d ∈ ds1 := by
      cases ds1 with
      | nil => simp at h11
      | cons a l => exact ⟨a, List.mem_cons_self _ _⟩
    have hdin : d ∈ (lowerStr tok).data := by
      rw [hdecomp]
      exact List.mem_append_left _ hd_mem
    have : (lowerStr tok).data.any isDigitChar = true :=
      List.any_eq_true.mpr ⟨d, hdin, hd1 d hd_mem⟩
    rw [hw] at this
    cases this
  refine ⟨?_, hkeep⟩
  rw [looksLikeTag]
  simp only [htrim]
  rw [if_neg hne]
  by_cases g1 : tok.data.length ≤ 6 ∧ upperStr tok = tok ∧ lowerStr tok ≠ tok
  · rw [if_pos g1, hkeep]
    rfl
  · rw [if_neg g1, if_pos ⟨hdig, by omega⟩]

/-- A token that does not match the compact form leaves season and episode
untouched: every other branch of the `classify_tokens` loop body (including
the dead alternate-form branch) only appends to `removed` or `title`. -/
theorem classifyGo_cons_preserve (tok : String) (rest : List String)
    (st : ClassifyRes) (hm : parseSxxEyy (lowerStr tok) = none) :
    ∃ title' removed',
      classifyGo (tok :: rest) st =
        classifyGo rest { st with title := title', removed := removed' } := by
  rw [classifyGo]
  simp only [hm]
  by_cases hguard :
      (looksLikeTag tok = true) ∧ ((!keepShortWords.contains (lowerStr tok)) = true)
  · rw [if_pos hguard]
    exact ⟨st.title, st.removed ++ [tok], rfl⟩
  · rw [if_neg hguard]
    rcases hx : parseXXxYY (lowerStr tok) with _ | p
    · simp only [hx]
      by_cases hj : isJunkToken tok = true
      · rw [if_pos hj]
        exact ⟨st.title, st.removed ++ [tok], rfl⟩
      · rw [if_neg hj]
        by_cases he : extraJunkLiterals.contains (lowerStr tok) = true
        · rw [if_pos he]
          exact ⟨st.title, st.removed ++ [tok], rfl⟩
        · rw [if_neg he]
          by_cases hy : isYearFormat tok = true
          · rw [if_pos hy]
            exact ⟨st.title, st.removed ++ [tok], rfl⟩
          · rw [if_neg hy]
            exact ⟨st.title ++ [tok], st.removed, rfl⟩
    · obtain ⟨ha, hb⟩ := looksLikeTag_of_parseXXxYY hx
      exact absurd ⟨ha, by rw [hb]; rfl⟩ hguard

/-- Season/episode tracking of the `classify_tokens` loop: the final season
and episode are those parsed from the last compact-form token, or the
incoming state's values when no token matches. -/
theorem classifyGo_sxxeyy (toks : List String) :
    ∀ st : ClassifyRes,
      (match (toks.filterMap (fun t => parseSxxEyy (lowerStr t))).getLast? with
       | some (s, e) =>
         (classifyGo toks st).season = some s ∧
         (classifyGo toks st).episode = some e
       | none =>
         (classifyGo toks st).season = st.season ∧
         (classifyGo toks st).episode = st.episode) := by
  induction toks with
  | nil =>
    intro st
    simp [classifyGo]
  | cons tok rest ih =>
    intro st
    rcases hm : parseSxxEyy (lowerStr tok) with _ | se
    · obtain ⟨t', r', hstep⟩ := classifyGo_cons_preserve tok rest st hm
      have hfm : (tok :: rest).filterMap (fun t => parseSxxEyy (lowerStr t)) =
          rest.filterMap (fun t => parseSxxEyy (lowerStr t)) := by
        simp [List.filterMap_cons, hm]
      rw [hfm, hstep]
      have := ih { st with title := t', removed := r' }
      rcases hlast : (rest.filterMap (fun t => parseSxxEyy (lowerStr t))).getLast? with
        _ | q
      · rw [hlast] at this
        exact this
      · rw [hlast] at this
        exact this
    · obtain ⟨s0, e0⟩ := se
      have hfm : (tok :: rest).filterMap (fun t => parseSxxEyy (lowerStr t)) =
          (s0, e0) :: rest.filterMap (fun t => parseSxxEyy (lowerStr t)) := by
        simp [List.filterMap_cons, hm]
      rw [hfm]
      have hstep : classifyGo (tok :: rest) st = classifyGo rest { st with season := some s0, episode := some e0, removed := st.removed ++ [tok] } := by
        rw [classifyGo]
        simp only [hm]
      rw [hstep]
      have := ih { st with season := some s0, episode := some e0, removed := st.removed ++ [tok] }
      rcases hrest : rest.filterMap (fun t => parseSxxEyy (lowerStr t)) with
        _ | ⟨q, qs⟩
      · rw [hrest] at this
        simp only [List.getLast?_nil] at this
        simp only [List.getLast?_singleton]
        exact this
      · rw [hrest] at this
        rw [List.getLast?_cons_cons]
        rcases hlast : (q :: qs).getLast? with _ | z
        · simp at hlast
        · obtain ⟨zs, ze⟩ := z
          rw [hlast] at this
          simp only [hlast]
          exact this

/-- C4, amended.  When a token sequence contains at least one compact-form
token `S<1-2 digits>E<1-3 digits>`, `classify_tokens` returns the season and
episode parsed from the last such token: a later match overwrites the
earlier values (first occurrence does not win). -/
theorem classify_tokens_last_sxxeyy_wins (toks : List String) (s e : Nat)
    (h : (toks.filterMap (fun t => parseSxxEyy (lowerStr t))).getLast? =
      some (s, e)) :
    (classifyTokens toks).season = some s ∧
      (classifyTokens toks).episode = some e := by
  have := classifyGo_sxxeyy toks ⟨none, none, [], []⟩
  rw [h] at this
  exact this

/-- Witness for C4: the last of two compact-form tokens decides the
result. -/
theorem classify_tokens_last_sxxeyy_wins_witness :
    (classifyTokens ["s01e02", "s03e04"]).season = some 3 ∧
      (classifyTokens ["s01e02", "s03e04"]).episode = some 4 :=
  classify_tokens_last_sxxeyy_wins ["s01e02", "s03e04"] 3 4 (by decide)


-- ---------------------------------------------------------------------------
-- Tokenizer hygiene (C8)
-- ---------------------------------------------------------------------------

theorem hExpect26_digit {r : List Char} {d : Char} (h : hExpect26 r = some d) :
    d = '4' ∨ d = '5' := by
  rw [hExpect26.eq_def] at h
  split at h
  · split at h
    · next hcond =>
      simp at h
      subst h
      exact hcond.1
    · cases h
  · cases h

theorem hMatchAt_digit {prev : Option Char} {cs : List Char} {n : Nat}
    {d : Char} (h : hMatchAt prev cs = some (n, d)) : d = '4' ∨ d = '5' := by
  rw [hMatchAt.eq_def] at h
  repeat' split at h
  all_goals try cases h
  all_goals
    rename_i heq
    exact hExpect26_digit heq

theorem mem_hSubGo {c : Char} :
    ∀ (fuel : Nat) (prev : Option Char) (cs : List Char),
      c ∈ hSubGo fuel prev cs →
      c ∈ cs ∨ c ∈ ['h', '2', '6', '4', '5'] := by
  intro fuel
  induction fuel with
  | zero => intro prev cs h; exact Or.inl h
  | succ m ih =>
    intro prev cs h
    rcases cs with _ | ⟨c0, rest⟩
    · simp [hSubGo] at h
    · simp only [hSubGo] at h
      rcases hm : hMatchAt prev (c0 :: rest) with _ | ⟨n, d⟩
      · simp only [hm] at h
        rcases List.mem_cons.mp h with rfl | h2
        · exact Or.inl (List.mem_cons_self _ _)
        · rcases ih (some c0) rest h2 with h3 | h3
          · exact Or.inl (List.mem_cons_of_mem _ h3)
          · exact Or.inr h3
      · simp only [hm] at h
        rcases hMatchAt_digit hm with rfl | rfl <;>
        · simp only [List.mem_cons] at h
          rcases h with rfl | rfl | rfl | rfl | h4
          · right; simp
          · right; simp
          · right; simp
          · right; simp
          · rcases ih _ _ h4 with h5 | h5
            · exact Or.inl (List.mem_of_mem_drop h5)
            · exact Or.inr h5

theorem bracketSub_no_bracket (s : String) :
    ∀ c ∈ (bracketSub s).data, isBracketChar c = false := by
  intro c hc
  simp only [bracketSub] at hc
  obtain ⟨c0, -, hc0⟩ := List.mem_map.mp hc
  by_cases hb : isBracketChar c0 = true
  · rw [if_pos hb] at hc0
    rw [← hc0]
    decide
  · simp only [Bool.not_eq_true] at hb
    rw [if_neg (by simp [hb])] at hc0
    rw [← hc0]
    exact hb

theorem mem_sepSubGo {c : Char} :
    ∀ (cs : List Char) (b : Bool), c ∈ sepSubGo cs b →
      isSepChar c = false ∧ (c ∈ cs ∨ c = ' ') := by
  intro cs
  induction cs with
  | nil => intro b h; simp [sepSubGo] at h
  | cons c0 rest ih =>
    intro b h
    rw [sepSubGo] at h
    by_cases hs : isSepChar c0 = true
    · rw [if_pos hs] at h
      by_cases hb : b = true
      · rw [if_pos hb] at h
        obtain ⟨h1, h2⟩ := ih true h
        refine ⟨h1, ?_⟩
        rcases h2 with h3 | h3
        · exact Or.inl (List.mem_cons_of_mem _ h3)
        · exact Or.inr h3
      · rw [if_neg hb] at h
        rcases List.mem_cons.mp h with rfl | h2
        · exact ⟨by decide, Or.inr rfl⟩
        · obtain ⟨h1, h3⟩ := ih true h2
          refine ⟨h1, ?_⟩
          rcases h3 with h4 | h4
          · exact Or.inl (List.mem_cons_of_mem _ h4)
          · exact Or.inr h4
    · rw [if_neg hs] at h
      simp only [Bool.not_eq_true] at hs
      rcases List.mem_cons.mp h with rfl | h2
      · exact ⟨hs, Or.inl (List.mem_cons_self _ _)⟩
      · obtain ⟨h1, h3⟩ := ih false h2
        refine ⟨h1, ?_⟩
        rcases h3 with h4 | h4
        · exact Or.inl (List.mem_cons_of_mem _ h4)
        · exact Or.inr h4

theorem mem_collapseWsGo {c : Char} :
    ∀ (cs : List Char) (b : Bool), c ∈ collapseWsGo cs b →
      (isWsChar c = true → c = ' ') ∧ (c ∈ cs ∨ c = ' ') := by
  intro cs
  induction cs with
  | nil => intro b h; simp [collapseWsGo] at h
  | cons c0 rest ih =>
    intro b h
    rw [collapseWsGo] at h
    by_cases hw : isWsChar c0 = true
    · rw [if_pos hw] at h
      by_cases hb : b = true
      · rw [if_pos hb] at h
        obtain ⟨h1, h2⟩ := ih true h
        refine ⟨h1, ?_⟩
        rcases h2 with h3 | h3
        · exact Or.inl (List.mem_cons_of_mem _ h3)
        · exact Or.inr h3
      · rw [if_neg hb] at h
        rcases List.mem_cons.mp h with rfl | h2
        · exact ⟨fun _ => rfl, Or.inr rfl⟩
        · obtain ⟨h1, h3⟩ := ih true h2
          refine ⟨h1, ?_⟩
          rcases h3 with h4 | h4
          · exact Or.inl (List.mem_cons_of_mem _ h4)
          · exact Or.inr h4
    · rw [if_neg hw] at h
      simp only [Bool.not_eq_true] at hw
      rcases List.mem_cons.mp h with rfl | h2
      · refine ⟨fun hcw => absurd hcw (by simp [hw]), Or.inl (List.mem_cons_self _ _)⟩
      · obtain ⟨h1, h3⟩ := ih false h2
        refine ⟨h1, ?_⟩
        rcases h3 with h4 | h4
        · exact Or.inl (List.mem_cons_of_mem _ h4)
        · exact Or.inr h4

theorem mem_trimWsL {c : Char} {cs : List Char} (h : c ∈ trimWsL cs) :
    c ∈ cs := by
  rw [trimWsL] at h
  rw [List.mem_reverse] at h
  have h1 := List.dropWhile_sublist (l := (cs.dropWhile isWsChar).reverse)
    (p := isWsChar)
  have h2 := h1.mem h
  rw [List.mem_reverse] at h2
  exact (List.dropWhile_sublist _).mem h2

theorem splitCharL_ne_nil (sep : Char) :
    ∀ cs : List Char, splitCharL sep cs ≠ [] := by
  intro cs
  cases cs with
  | nil => simp [splitCharL]
  | cons c rest =>
    rw [splitCharL]
    rcases splitCharL sep rest with _ | ⟨p, ps⟩ <;> by_cases h : c = sep <;>
      simp [h]

theorem splitCharL_chars (sep : Char) :
    ∀ (cs : List Char) (t : List Char), t ∈ splitCharL sep cs →
      ∀ c ∈ t, c ∈ cs ∧ ¬(c = sep) := by
  intro cs
  induction cs with
  | nil =>
    intro t ht c hc
    simp [splitCharL] at ht
    rw [ht] at hc
    simp at hc
  | cons c0 rest ih =>
    intro t ht c hc
    rcases hr : splitCharL sep rest with _ | ⟨p, ps⟩
    · exact absurd hr (splitCharL_ne_nil sep rest)
    · simp only [splitCharL, hr] at ht
      by_cases hs : c0 = sep
      · rw [if_pos hs] at ht
        rcases List.mem_cons.mp ht with rfl | ht2
        · simp at hc
        · have := ih t (by rw [hr]; exact ht2) c hc
          exact ⟨List.mem_cons_of_mem _ this.1, this.2⟩
      · rw [if_neg hs] at ht
        rcases List.mem_cons.mp ht with rfl | ht2
        · rcases List.mem_cons.mp hc with rfl | hc2
          · exact ⟨List.mem_cons_self _ _, hs⟩
          · have := ih p (by rw [hr]; exact List.mem_cons_self p ps) c hc2
            exact ⟨List.mem_cons_of_mem _ this.1, this.2⟩
        · have := ih t (by rw [hr]; exact List.mem_cons_of_mem p ht2) c hc
          exact ⟨List.mem_cons_of_mem _ this.1, this.2⟩

/-- C8.  Every token produced by `tokenize` is non-empty and contains no
tokenizer punctuation character and no whitespace at all — in particular no
token has leading or trailing punctuation. -/
theorem tokenize_tokens_clean (x : String) (t : String) (h : t ∈ tokenize x) :
    t ≠ "" ∧ ∀ c ∈ t.data, isTokenizerPunct c = false ∧ isWsChar c = false := by
  rw [tokenize] at h
  obtain ⟨td, htd, rfl⟩ := List.mem_map.mp h
  obtain ⟨htmem, htne⟩ := List.mem_filter.mp htd
  constructor
  · intro hempty
    have : td = [] := congrArg String.data hempty
    rw [this] at htne
    simp at htne
  · intro c hc
    obtain ⟨hmem1, hnsp⟩ := splitCharL_chars ' ' _ td htmem c hc
    have hmem2 := mem_trimWsL hmem1
    obtain ⟨hwsp, hmem3⟩ := mem_collapseWsGo _ _ hmem2
    have hnws : isWsChar c = false := by
      by_contra hww
      simp only [Bool.not_eq_false] at hww
      exact hnsp (hwsp hww)
    rcases hmem3 with hmem4 | hsp
    · obtain ⟨hnsep, hmem5⟩ := mem_sepSubGo _ _ hmem4
      rcases hmem5 with hmem6 | hsp
      · have hnbr := bracketSub_no_bracket (hSub (stripDiacritics x)) c hmem6
        refine ⟨?_, hnws⟩
        simp [isTokenizerPunct, hnsep, hnbr]
      · exact absurd hsp hnsp
    · exact absurd hsp hnsp

/-- Witness for C8: the token `"h265"` of a concrete messy stem is clean. -/
theorem tokenize_tokens_clean_witness :
    ("h265" : String) ≠ "" ∧
      ∀ c ∈ ("h265" : String).data,
        isTokenizerPunct c = false ∧ isWsChar c = false :=
  tokenize_tokens_clean "[TGx] Show.h 265" "h265" (by decide)

-- ---------------------------------------------------------------------------
-- Extension handling (C7)
-- ---------------------------------------------------------------------------

theorem lastIdxOf_none {c : Char} :
    ∀ {cs : List Char}, lastIdxOf c cs = none → ∀ x ∈ cs, x ≠ c := by
  intro cs
  induction cs with
  | nil => intro _ x hx; simp at hx
  | cons y rest ih =>
    intro h x hx
    rw [lastIdxOf] at h
    rcases hr : lastIdxOf c rest with _ | j
    · rw [hr] at h
      by_cases hy : y = c
      · rw [if_pos hy] at h; cases h
      · rw [if_neg hy] at h
        rcases List.mem_cons.mp hx with rfl | hx2
        · exact hy
        · exact ih hr x hx2
    · rw [hr] at h; cases h

theorem lastIdxOf_some_spec {c : Char} :
    ∀ {cs : List Char} {i : Nat}, lastIdxOf c cs = some i →
      ∃ pre post, cs = pre ++ c :: post ∧ pre.length = i ∧ ∀ x ∈ post, x ≠ c := by
  intro cs
  induction cs with
  | nil => intro i h; cases h
  | cons y rest ih =>
    intro i h
    rw [lastIdxOf] at h
    rcases hr : lastIdxOf c rest with _ | j
    · rw [hr] at h
      by_cases hy : y = c
      · rw [if_pos hy] at h
        simp at h
        subst h
        subst hy
        exact ⟨[], rest, rfl, rfl, lastIdxOf_none hr⟩
      · rw [if_neg hy] at h; cases h
    · rw [hr] at h
      simp at h
      subst h
      obtain ⟨pre, post, hdec, hlen, hpost⟩ := ih hr
      exact ⟨y :: pre, post, by rw [hdec]; rfl, by simp [hlen], hpost⟩

/-- Shape of a pathlib suffix: empty, or a dot followed by a non-empty
dotless tail. -/
theorem suffixOfName_shape (name : String) :
    (suffixOfName name).data = [] ∨
      ∃ w, (suffixOfName name).data = '.' :: w ∧ w ≠ [] ∧ ∀ x ∈ w, x ≠ '.' := by
  rcases h : lastIdxOf '.' name.data with _ | i
  · left
    rw [suffixOfName, h]
  · have hval : suffixOfName name =
        if 0 < i ∧ i < name.data.length - 1 then
          (⟨name.data.drop i⟩ : String)
        else "" := by
      rw [suffixOfName, h]
    by_cases hc : 0 < i ∧ i < name.data.length - 1
    · rw [hval, if_pos hc]
      right
      obtain ⟨pre, post, hdec, hlen, hpost⟩ := lastIdxOf_some_spec h
      refine ⟨post, ?_, ?_, hpost⟩
      · show name.data.drop i = '.' :: post
        rw [hdec, ← hlen]
        exact List.drop_left pre ('.' :: post)
      · intro hpn
        subst hpn
        have := congrArg List.length hdec
        simp at this
        have hsl : name.length = name.data.length := rfl
        omega
    · rw [hval, if_neg hc]
      exact Or.inl rfl

theorem lowerChar_lowerChar (c : Char) : lowerChar (lowerChar c) = lowerChar c := by
  rw [char_eq_iff]
  simp only [lowerChar_toNat]
  split_ifs <;> omega

theorem lowerChar_dot {c : Char} : lowerChar c = '.' ↔ c = '.' := by
  have h46 : ('.' : Char).toNat = 46 := rfl
  rw [char_eq_iff, char_eq_iff, h46, lowerChar_toNat]
  split_ifs <;> omega

theorem suffix_of_suffix_le {α : Type} {a b l : List α} (h1 : a <:+ l)
    (h2 : b <:+ l) (h : a.length ≤ b.length) : a <:+ b := by
  obtain ⟨t1, e1⟩ := h1
  obtain ⟨t2, e2⟩ := h2
  rw [← e2] at e1
  rcases List.append_eq_append_iff.mp e1 with ⟨u, hu1, hu2⟩ | ⟨u, hu1, hu2⟩
  · have := congrArg List.length hu2
    simp at this
    have hu : u = [] := by
      have hlen0 : u.length = 0 := by omega
      exact List.length_eq_zero.mp hlen0
    rw [hu] at hu2
    simp at hu2
    rw [hu2]
  · exact ⟨u, hu2.symm⟩

/-- Concrete shape facts about the recognized video extensions: each is a
dot followed by a non-empty dotless tail and contains exactly one dot. -/
theorem videoExts_shape :
    ∀ e ∈ videoExtsList, e.data = '.' :: e.data.tail ∧ e.data.tail ≠ [] ∧
      (∀ x ∈ e.data.tail, x ≠ '.') ∧ e.data.count '.' = 1 := by
  decide

/-- C7, amended.  `ensure_single_extension` strips at most one redundant
trailing recognized extension, so whenever the base, after that single
strip, does not still end with a recognized video extension (i.e. the base
did not carry two stacked extensions), the destination filename does not
end with two concatenated recognized media extensions. -/
theorem ensure_single_extension_single_strip_safe (base src : String)
    (hb : ∀ e ∈ videoExtsList,
      endsWithStr (lowerStr (stripRedundantVideoExt (trimWs base))) e = false) :
    ∀ e1 ∈ videoExtsList, ∀ e2 ∈ videoExtsList,
      endsWithStr (lowerStr (ensureSingleExtension base src)) (e1 ++ e2) =
        false := by
  intro e1 he1 e2 he2
  by_contra hcon
  simp only [Bool.not_eq_false] at hcon
  rw [endsWithStr, List.isSuffixOf_iff_suffix] at hcon
  have hdata : (lowerStr (ensureSingleExtension base src)).data =
      (lowerStr (stripRedundantVideoExt (trimWs base))).data ++
        (lowerStr (suffixOf src)).data := by
    show (ensureSingleExtension base src).data.map lowerChar = _
    rw [ensureSingleExtension, String.data_append]
    rw [List.map_append]
    congr 1
    show (lowerStr (suffixOf src)).data.map lowerChar = _
    show ((suffixOf src).data.map lowerChar).map lowerChar = _
    rw [List.map_map]
    apply List.map_congr_left
    intro c _
    exact lowerChar_lowerChar c
  rw [hdata, String.data_append] at hcon
  set lb := (lowerStr (stripRedundantVideoExt (trimWs base))).data with hlb
  have hext : ∀ e ∈ videoExtsList, ¬(e.data <:+ lb) := by
    intro e he hsuf
    have := hb e he
    rw [endsWithStr] at this
    rw [← List.isSuffixOf_iff_suffix] at hsuf
    rw [this] at hsuf
    cases hsuf
  have hfinish : ¬((lowerStr (suffixOf src)).data = e2.data) := by
    intro hS
    obtain ⟨u, hu⟩ := hcon
    rw [hS] at hu
    rw [← List.append_assoc] at hu
    have := List.append_cancel_right hu
    exact hext e1 he1 ⟨u, this⟩
  obtain ⟨w1s, he1d, hw1ne, hw1nd, -⟩ :=
    (fun h => ⟨e1.data.tail, h.1, h.2.1, h.2.2.1, h.2.2.2⟩ :
      _ → ∃ w, e1.data = '.' :: w ∧ w ≠ [] ∧ (∀ x ∈ w, x ≠ '.') ∧
        e1.data.count '.' = 1) (videoExts_shape e1 he1)
  obtain ⟨w2s, he2d, hw2ne, hw2nd, -⟩ :=
    (fun h => ⟨e2.data.tail, h.1, h.2.1, h.2.2.1, h.2.2.2⟩ :
      _ → ∃ w, e2.data = '.' :: w ∧ w ≠ [] ∧ (∀ x ∈ w, x ≠ '.') ∧
        e2.data.count '.' = 1) (videoExts_shape e2 he2)
  have hcount1 : e1.data.count '.' = 1 := (videoExts_shape e1 he1).2.2.2
  have hcount2 : e2.data.count '.' = 1 := (videoExts_shape e2 he2).2.2.2
  rcases suffixOfName_shape (pathName src) with hS0 | ⟨w, hSd, hwne, hwnd⟩
  · -- no suffix on the source: the double extension must sit inside the base
    have hS : (lowerStr (suffixOf src)).data = [] := by
      show (suffixOf src).data.map lowerChar = []
      rw [suffixOf] at *
      rw [hS0]
      rfl
    rw [hS, List.append_nil] at hcon
    have he2suf : e2.data <:+ lb :=
      (List.suffix_append e1.data e2.data).trans hcon
    exact hext e2 he2 he2suf
  · -- suffix is a dot plus a dotless tail
    have hS : (lowerStr (suffixOf src)).data = '.' :: w.map lowerChar := by
      show (suffixOf src).data.map lowerChar = _
      rw [suffixOf] at *
      rw [hSd]
      rfl
    have hwnd' : ∀ x ∈ w.map lowerChar, x ≠ '.' := by
      intro x hx
      obtain ⟨y, hy, rfl⟩ := List.mem_map.mp hx
      intro hdot
      exact hwnd y hy (lowerChar_dot.mp hdot)
    rw [hS] at hcon hfinish
    set S := '.' :: w.map lowerChar with hSdef
    by_cases hle : (e1.data ++ e2.data).length ≤ S.length
    · have hPS : e1.data ++ e2.data <:+ S :=
        suffix_of_suffix_le hcon (List.suffix_append lb S) hle
      have hcP : (e1.data ++ e2.data).count '.' = 2 := by
        rw [List.count_append, hcount1, hcount2]
      have hcS : S.count '.' = 1 := by
        have hw0 : (w.map lowerChar).count '.' = 0 := by
          rw [List.count_eq_zero]
          intro hmem
          exact hwnd' '.' hmem rfl
        rw [hSdef, List.count_cons, hw0]
        simp
      have := hPS.sublist.count_le '.'
      omega
    · push_neg at hle
      have hSP : S <:+ e1.data ++ e2.data :=
        suffix_of_suffix_le (List.suffix_append lb S) hcon (by omega)
      obtain ⟨t, hPt⟩ := hSP
      rcases List.append_eq_append_iff.mp hPt with ⟨u, hu1, hu2⟩ | ⟨u, hu1, hu2⟩
      · rcases u with _ | ⟨y, u2⟩
        · rw [List.nil_append] at hu2
          exact hfinish hu2
        · rw [hSdef, he2d] at hu2
          simp only [List.cons_append, List.cons.injEq] at hu2
          obtain ⟨hy, hw⟩ := hu2
          have hmem : '.' ∈ w.map lowerChar := by
            rw [hw]
            apply List.mem_append_right
            exact List.mem_cons_self _ _
          exact hwnd' '.' hmem rfl
      · rcases u with _ | ⟨y, u2⟩
        · rw [List.nil_append] at hu2
          exact hfinish hu2.symm
        · rw [he2d] at hu2
          simp only [List.cons_append, List.cons.injEq] at hu2
          obtain ⟨hy, hw⟩ := hu2
          have hmem : '.' ∈ w2s := by
            rw [hw]
            apply List.mem_append_right
            rw [hSdef]
            exact List.mem_cons_self _ _
          exact hw2nd '.' hmem rfl

/-- Witness for C7: a base with no redundant extension yields a destination
that does not end with `.mkv.avi`. -/
theorem ensure_single_extension_single_strip_safe_witness :
    endsWithStr (lowerStr (ensureSingleExtension "Show - S01E02" "/x/a.mkv"))
      (".mkv" ++ ".avi") = false :=
  ensure_single_extension_single_strip_safe "Show - S01E02" "/x/a.mkv"
    (by decide) ".mkv" (by decide) ".avi" (by decide)

-- ---------------------------------------------------------------------------
-- Duplicate-name normalization (C10)
-- ---------------------------------------------------------------------------

theorem lastIdxOf_eq_none_of_not_mem {ch : Char} :
    ∀ {cs : List Char}, (∀ c ∈ cs, c ≠ ch) → lastIdxOf ch cs = none := by
  intro cs
  induction cs with
  | nil => intro _; rfl
  | cons x rest ih =>
    intro h
    rw [lastIdxOf, ih (fun c hc => h c (List.mem_cons_of_mem _ hc)),
      if_neg (h x (List.mem_cons_self _ _))]

theorem lastIdxOf_append_sep {ch : Char} :
    ∀ (pre post : List Char), (∀ c ∈ pre, c ≠ ch) → (∀ c ∈ post, c ≠ ch) →
      lastIdxOf ch (pre ++ ch :: post) = some pre.length := by
  intro pre
  induction pre with
  | nil =>
    intro post _ hpost
    rw [List.nil_append, lastIdxOf, lastIdxOf_eq_none_of_not_mem hpost,
      if_pos rfl]
    rfl
  | cons x pre' ih =>
    intro post hpre hpost
    rw [List.cons_append, lastIdxOf,
      ih post (fun c hc => hpre c (List.mem_cons_of_mem _ hc)) hpost]
    rfl

theorem splitCharL_no_sep {sep : Char} :
    ∀ {cs : List Char}, (∀ c ∈ cs, c ≠ sep) → splitCharL sep cs = [cs] := by
  intro cs
  induction cs with
  | nil => intro _; rfl
  | cons x rest ih =>
    intro h
    rw [splitCharL, ih (fun c hc => h c (List.mem_cons_of_mem _ hc))]
    show (if x = sep then [[], rest] else [x :: rest]) = [x :: rest]
    rw [if_neg (h x (List.mem_cons_self _ _))]

theorem splitCharL_append_sep {sep : Char} :
    ∀ (pre post : List Char), (∀ c ∈ pre, c ≠ sep) → (∀ c ∈ post, c ≠ sep) →
      splitCharL sep (pre ++ sep :: post) = [pre, post] := by
  intro pre
  induction pre with
  | nil =>
    intro post _ hpost
    rw [List.nil_append, splitCharL, splitCharL_no_sep hpost]
    show (if sep = sep then [[], post] else [sep :: post]) = [[], post]
    rw [if_pos rfl]
  | cons x pre' ih =>
    intro post hpre hpost
    rw [List.cons_append, splitCharL,
      ih post (fun c hc => hpre c (List.mem_cons_of_mem _ hc)) hpost]
    show (if x = sep then [[], pre', post] else [x :: pre', post]) =
      [x :: pre', post]
    rw [if_neg (hpre x (List.mem_cons_self _ _))]

theorem head_dropWhile_not {p : Char → Bool} :
    ∀ {cs : List Char} {c : Char}, (cs.dropWhile p).head? = some c →
      p c = false := by
  intro cs
  induction cs with
  | nil => intro c h; cases h
  | cons x rest ih =>
    intro c h
    rw [List.dropWhile_cons] at h
    by_cases hp : p x = true
    · rw [if_pos hp] at h
      exact ih h
    · rw [if_neg hp] at h
      simp at h
      subst h
      simpa using hp

theorem dropWhile_isSuffix {p : Char → Bool} :
    ∀ (l : List Char), ∃ t, t ++ l.dropWhile p = l := by
  intro l
  induction l with
  | nil => exact ⟨[], rfl⟩
  | cons x rest ih =>
    rw [List.dropWhile_cons]
    by_cases hp : p x = true
    · rw [if_pos hp]
      obtain ⟨t, ht⟩ := ih
      exact ⟨x :: t, by rw [List.cons_append, ht]⟩
    · rw [if_neg hp]
      exact ⟨[], rfl⟩

theorem trimWsL_head {cs : List Char} {c : Char}
    (h : (trimWsL cs).head? = some c) : isWsChar c = false := by
  rw [trimWsL, List.head?_reverse] at h
  obtain ⟨t, ht⟩ := dropWhile_isSuffix (p := isWsChar)
    ((cs.dropWhile isWsChar).reverse)
  have hne : ((cs.dropWhile isWsChar).reverse.dropWhile isWsChar) ≠ [] := by
    intro hnil
    rw [hnil] at h
    cases h
  have hgl : ((cs.dropWhile isWsChar).reverse).getLast? = some c := by
    rw [← ht, List.getLast?_append_of_ne_nil _ hne, h]
  rw [List.getLast?_reverse] at hgl
  exact head_dropWhile_not hgl

theorem trimWsL_getLast {cs : List Char} {c : Char}
    (h : (trimWsL cs).getLast? = some c) : isWsChar c = false := by
  rw [trimWsL] at h
  rw [List.getLast?_reverse] at h
  exact head_dropWhile_not h

theorem trimWsL_eq_self_of_edges {cs : List Char}
    (hh : ∀ c, cs.head? = some c → isWsChar c = false)
    (hl : ∀ c, cs.getLast? = some c → isWsChar c = false) :
    trimWsL cs = cs := by
  have h1 : cs.dropWhile isWsChar = cs := by
    rcases cs with _ | ⟨x, rest⟩
    · rfl
    · rw [List.dropWhile_cons, if_neg (by simp [hh x rfl])]
  rw [trimWsL, h1]
  have h2 : cs.reverse.dropWhile isWsChar = cs.reverse := by
    rcases hr : cs.reverse with _ | ⟨x, rest⟩
    · rfl
    · rw [List.dropWhile_cons, if_neg ?_]
      have hx : cs.getLast? = some x := by
        rw [← List.head?_reverse, hr]
        rfl
      simp [hl x hx]
  rw [h2, List.reverse_reverse]

theorem mem_of_getLast_eq {a : Char} :
    ∀ {l : List Char}, l.getLast? = some a → a ∈ l := by
  intro l
  induction l with
  | nil => intro h; cases h
  | cons x rest ih =>
    intro h
    rcases rest with _ | ⟨y, ys⟩
    · simp at h
      subst h
      exact List.mem_cons_self _ _
    · rw [List.getLast?_cons_cons] at h
      exact List.mem_cons_of_mem _ (ih h)

/-- Fixpoint lemma: a name of the shape `stem` or `stem.tail` whose stem is
non-empty, dotless, lowercase, trimmed and free of trailing duplicate
markers, and whose optional suffix tail is non-empty, dotless and lowercase,
is left unchanged by `normalize_dupe_name`. -/
theorem normalizeDupeName_fixpoint (t w : List Char)
    (ht_ne : t ≠ [])
    (ht_nd : ∀ c ∈ t, c ≠ '.')
    (ht_low : t.map lowerChar = t)
    (ht_trim : trimWsL t = t)
    (ht_copy : copyTailSubL t = t)
    (hw : w = [] ∨ ((∀ c ∈ w, c ≠ '.') ∧ w.map lowerChar = w)) :
    normalizeDupeName ⟨t ++ (if w = [] then [] else '.' :: w)⟩ =
      ⟨t ++ (if w = [] then [] else '.' :: w)⟩ := by
  by_cases hwnil : w = []
  · rw [if_pos hwnil]
    rw [List.append_nil]
    have hstem : stemOfName ⟨t⟩ = ⟨t⟩ := by
      rw [stemOfName]
      have : lastIdxOf '.' (⟨t⟩ : String).data = none :=
        lastIdxOf_eq_none_of_not_mem ht_nd
      rw [this]
    have hsfx : suffixesOfName ⟨t⟩ = [] := by
      rw [suffixesOfName]
      rw [if_neg ?_]
      · have hdrop : (⟨t⟩ : String).data.dropWhile (· = '.') = t := by
          rcases t with _ | ⟨x, rest⟩
          · rfl
          · show (x :: rest).dropWhile (· = '.') = x :: rest
            rw [List.dropWhile_cons,
              if_neg (by simp [ht_nd x (List.mem_cons_self _ _)])]
        rw [hdrop, splitCharL_no_sep ht_nd]
        rfl
      · intro hcon
        have := hcon.2
        have hmem : '.' ∈ t := by
          rcases hgl : t.getLast? with _ | g
          · rw [hgl] at this; cases this
          · rw [hgl] at this
            simp at this
            subst this
            exact mem_of_getLast_eq hgl
        exact ht_nd '.' hmem rfl
    have hc : copyTailSub ⟨t⟩ = ⟨t⟩ := String.ext ht_copy
    have htr : trimWs ⟨t⟩ = ⟨t⟩ := String.ext ht_trim
    show lowerStr (trimWs (copyTailSub (stemOfName ⟨t⟩)) ++
        String.join (suffixesOfName ⟨t⟩)) = ⟨t⟩
    rw [hstem, hsfx, hc, htr]
    apply String.ext
    show ((⟨t⟩ : String) ++ String.join []).data.map lowerChar = t
    rw [String.data_append]
    show (t ++ []).map lowerChar = t
    rw [List.append_nil, ht_low]
  · rw [if_neg hwnil]
    obtain ⟨hw_nd, hw_low⟩ := hw.resolve_left hwnil
    have hstem : stemOfName ⟨t ++ '.' :: w⟩ = ⟨t⟩ := by
      rw [stemOfName]
      have hli : lastIdxOf '.' (⟨t ++ '.' :: w⟩ : String).data =
          some t.length := lastIdxOf_append_sep t w ht_nd hw_nd
      rw [hli]
      show (if 0 < t.length ∧ t.length < (t ++ '.' :: w).length - 1 then
          (⟨(t ++ '.' :: w).take t.length⟩ : String)
        else ⟨t ++ '.' :: w⟩) = ⟨t⟩
      rw [if_pos ?_]
      · show (⟨(t ++ '.' :: w).take t.length⟩ : String) = ⟨t⟩
        rw [List.take_left]
      · constructor
        · rcases t with _ | _
          · exact absurd rfl ht_ne
          · simp
        · show t.length < (t ++ '.' :: w).length - 1
          rcases w with _ | _
          · exact absurd rfl hwnil
          · simp
    have hsfx : suffixesOfName ⟨t ++ '.' :: w⟩ = [⟨'.' :: w⟩] := by
      rw [suffixesOfName]
      rw [if_neg ?_]
      · have hdrop : (⟨t ++ '.' :: w⟩ : String).data.dropWhile (· = '.') =
            t ++ '.' :: w := by
          rcases t with _ | ⟨x, rest⟩
          · exact absurd rfl ht_ne
          · show ((x :: rest) ++ '.' :: w).dropWhile (· = '.') = _
            rw [List.cons_append, List.dropWhile_cons,
              if_neg (by simp [ht_nd x (List.mem_cons_self _ _)])]
        rw [hdrop, splitCharL_append_sep t w ht_nd hw_nd]
        rfl
      · intro hcon
        have hgl := hcon.2
        rw [List.getLast?_append_of_ne_nil _ (by simp)] at hgl
        rcases w with _ | ⟨y, ys⟩
        · exact absurd rfl hwnil
        · rw [List.getLast?_cons_cons] at hgl
          have hmem : '.' ∈ y :: ys := by
            rcases hgl2 : (y :: ys).getLast? with _ | g
            · rw [hgl2] at hgl; cases hgl
            · rw [hgl2] at hgl
              simp at hgl
              subst hgl
              exact mem_of_getLast_eq hgl2
          exact hw_nd '.' hmem rfl
    have hc : copyTailSub ⟨t⟩ = ⟨t⟩ := String.ext ht_copy
    have htr : trimWs ⟨t⟩ = ⟨t⟩ := String.ext ht_trim
    show lowerStr (trimWs (copyTailSub (stemOfName ⟨t ++ '.' :: w⟩)) ++
        String.join (suffixesOfName ⟨t ++ '.' :: w⟩)) = ⟨t ++ '.' :: w⟩
    rw [hstem, hsfx, hc, htr]
    have hjoin : String.join [(⟨'.' :: w⟩ : String)] = ⟨'.' :: w⟩ := by
      apply String.ext
      show (("" : String) ++ (⟨'.' :: w⟩ : String)).data = '.' :: w
      rw [String.data_append]
      rfl
    rw [hjoin]
    apply String.ext
    show ((⟨t⟩ : String) ++ (⟨'.' :: w⟩ : String)).data.map lowerChar =
      t ++ '.' :: w
    rw [String.data_append]
    show (t ++ '.' :: w).map lowerChar = t ++ '.' :: w
    rw [List.map_append, ht_low]
    show t ++ lowerChar '.' :: w.map lowerChar = t ++ '.' :: w
    rw [hw_low]
    have hdot : lowerChar '.' = '.' := by decide
    rw [hdot]

theorem getLast?_map_char (f : Char → Char) (l : List Char) :
    (l.map f).getLast? = l.getLast?.map f := by
  rw [← List.head?_reverse, ← List.map_reverse, List.head?_map,
    List.head?_reverse]

theorem suffixesOfName_mem_shape (name : String) :
    ∀ sfx ∈ suffixesOfName name, ∃ piece, sfx = (⟨'.' :: piece⟩ : String) ∧
      ∀ c ∈ piece, c ≠ '.' := by
  intro sfx hmem
  rw [suffixesOfName] at hmem
  by_cases hc : name.data ≠ [] ∧ name.data.getLast? = some '.'
  · rw [if_pos hc] at hmem
    cases hmem
  · rw [if_neg hc] at hmem
    rcases hsp : splitCharL '.' (name.data.dropWhile (· = '.')) with _ | ⟨p0, rest⟩
    · rw [hsp] at hmem
      cases hmem
    · rw [hsp] at hmem
      obtain ⟨piece, hpmem, hpe⟩ := List.mem_map.mp hmem
      refine ⟨piece, hpe.symm, ?_⟩
      intro c hcp
      exact (splitCharL_chars '.' _ piece
        (by rw [hsp]; exact List.mem_cons_of_mem _ hpmem) c hcp).2

/-- C10: `normalize_dupe_name` is idempotent on simple names: when the name
carries at most one dotted suffix, every suffix has a non-empty piece after
its dot, and the stripped-and-trimmed stem is non-empty, dot-free, and (after
lowercasing) carries no further trailing duplicate marker, then applying
`normalize_dupe_name` twice equals applying it once. The unrestricted claim
is refuted separately: multi-suffix names duplicate their middle suffixes. -/
theorem normalize_dupe_name_idempotent_simple (name s : String)
    (hs : s = trimWs (copyTailSub (stemOfName name)))
    (h1 : (suffixesOfName name).length ≤ 1)
    (h2 : ∀ sfx ∈ suffixesOfName name, 2 ≤ sfx.data.length)
    (h3 : s.data ≠ [])
    (h4 : ∀ c ∈ s.data, c ≠ '.')
    (h5 : copyTailSubL (lowerStr s).data = (lowerStr s).data) :
    normalizeDupeName (normalizeDupeName name) = normalizeDupeName name := by
  have hsd : s.data = trimWsL (copyTailSub (stemOfName name)).data := by
    rw [hs]
    rfl
  have hne : s.data.map lowerChar ≠ [] := by
    intro hcon
    exact h3 (List.map_eq_nil_iff.mp hcon)
  have hnd : ∀ c ∈ s.data.map lowerChar, c ≠ '.' := by
    intro c hcmem hdot
    obtain ⟨c0, hc0, hce⟩ := List.mem_map.mp hcmem
    exact h4 c0 hc0 (lowerChar_dot.mp (hce.trans hdot))
  have hlow : (s.data.map lowerChar).map lowerChar = s.data.map lowerChar := by
    rw [List.map_map]
    exact List.map_congr_left (fun a _ => lowerChar_lowerChar a)
  have htrim : trimWsL (s.data.map lowerChar) = s.data.map lowerChar := by
    apply trimWsL_eq_self_of_edges
    · intro c hc
      rw [List.head?_map] at hc
      rcases hh : s.data.head? with _ | c0
      · rw [hh] at hc; cases hc
      · rw [hh] at hc
        simp at hc
        subst hc
        rw [isWsChar_lowerChar]
        rw [hsd] at hh
        exact trimWsL_head hh
    · intro c hc
      rw [getLast?_map_char] at hc
      rcases hh : s.data.getLast? with _ | c0
      · rw [hh] at hc; cases hc
      · rw [hh] at hc
        simp at hc
        subst hc
        rw [isWsChar_lowerChar]
        rw [hsd] at hh
        exact trimWsL_getLast hh
  rcases hsfxs : suffixesOfName name with _ | ⟨sfx, rest⟩
  · have heq : normalizeDupeName name = ⟨s.data.map lowerChar⟩ := by
      show lowerStr (trimWs (copyTailSub (stemOfName name)) ++
          String.join (suffixesOfName name)) = _
      rw [← hs, hsfxs]
      apply String.ext
      show ((s ++ String.join []).data).map lowerChar = s.data.map lowerChar
      rw [String.data_append]
      show (s.data ++ []).map lowerChar = s.data.map lowerChar
      rw [List.append_nil]
    have hfix := normalizeDupeName_fixpoint (s.data.map lowerChar) []
      hne hnd hlow htrim h5 (Or.inl rfl)
    rw [if_pos rfl, List.append_nil] at hfix
    rw [heq]
    exact hfix
  · rcases rest with _ | ⟨sfx2, rest2⟩
    · obtain ⟨piece, hpe, hpnd⟩ := suffixesOfName_mem_shape name sfx
        (by rw [hsfxs]; exact List.mem_cons_self _ _)
      have hwne : piece.map lowerChar ≠ [] := by
        have hlen := h2 sfx (by rw [hsfxs]; exact List.mem_cons_self _ _)
        rw [hpe] at hlen
        intro hcon
        have hp : piece = [] := List.map_eq_nil_iff.mp hcon
        rw [hp] at hlen
        simp at hlen
      have hw_nd : ∀ c ∈ piece.map lowerChar, c ≠ '.' := by
        intro c hcm hdot
        obtain ⟨c0, hc0, hce⟩ := List.mem_map.mp hcm
        exact hpnd c0 hc0 (lowerChar_dot.mp (hce.trans hdot))
      have hw_low : (piece.map lowerChar).map lowerChar =
          piece.map lowerChar := by
        rw [List.map_map]
        exact List.map_congr_left (fun a _ => lowerChar_lowerChar a)
      have hdot : lowerChar '.' = '.' := by decide
      have heq : normalizeDupeName name =
          ⟨s.data.map lowerChar ++ '.' :: piece.map lowerChar⟩ := by
        show lowerStr (trimWs (copyTailSub (stemOfName name)) ++
            String.join (suffixesOfName name)) = _
        rw [← hs, hsfxs, hpe]
        have hjoin : String.join [(⟨'.' :: piece⟩ : String)] =
            ⟨'.' :: piece⟩ := by
          apply String.ext
          show (("" : String) ++ (⟨'.' :: piece⟩ : String)).data = '.' :: piece
          rw [String.data_append]
          rfl
        rw [hjoin]
        apply String.ext
        show ((s ++ (⟨'.' :: piece⟩ : String)).data).map lowerChar =
          s.data.map lowerChar ++ '.' :: piece.map lowerChar
        rw [String.data_append]
        show (s.data ++ '.' :: piece).map lowerChar = _
        rw [List.map_append]
        show s.data.map lowerChar ++ lowerChar '.' :: piece.map lowerChar = _
        rw [hdot]
      have hfix := normalizeDupeName_fixpoint (s.data.map lowerChar)
        (piece.map lowerChar) hne hnd hlow htrim h5 (Or.inr ⟨hw_nd, hw_low⟩)
      rw [if_neg hwne] at hfix
      rw [heq]
      exact hfix
    · rw [hsfxs] at h1
      simp at h1

theorem normalize_dupe_name_idempotent_simple_witness :
    normalizeDupeName (normalizeDupeName "movie copy.mkv") =
      normalizeDupeName "movie copy.mkv" :=
  normalize_dupe_name_idempotent_simple "movie copy.mkv"
    (trimWs (copyTailSub (stemOfName "movie copy.mkv"))) rfl
    (by decide) (by decide) (by decide) (by decide) (by decide)

-- ---------------------------------------------------------------------------
-- Year discipline of parse_base_name (C6)
-- ---------------------------------------------------------------------------

theorem lowerChar_digit {c : Char} (h : isDigitChar c = true) :
    lowerChar c = c := by
  have hd := isDigitChar_iff.mp h
  rw [char_eq_iff, lowerChar_toNat, if_neg (by omega)]

theorem junk_len4_head (s : String) (hs : s ∈ knownJunkNames)
    (hlen : s.data.length = 4) :
    s.data.head? ≠ some '1' ∧ s.data.head? ≠ some '2' := by
  fin_cases hs <;> first | decide | (exact absurd hlen (by decide))

theorem yearFormat_not_junk {t : String} (h : isYearFormat t = true) :
    knownJunkNames.contains (lowerStr t) = false := by
  rw [contains_false_iff]
  intro hmem
  rcases ht : t.data with _ | ⟨c0, _ | ⟨c1, _ | ⟨c2, _ | ⟨c3, _ | ⟨c4, l5⟩⟩⟩⟩⟩ <;>
    rw [isYearFormat.eq_def, ht] at h <;> simp at h
  obtain ⟨h01, hd2, hd3⟩ := h
  have e1 : lowerChar '1' = '1' := by decide
  have e9 : lowerChar '9' = '9' := by decide
  have e2 : lowerChar '2' = '2' := by decide
  have e0 : lowerChar '0' = '0' := by decide
  have hld : (lowerStr t).data = [c0, c1, c2, c3] := by
    show t.data.map lowerChar = _
    rw [ht]
    show [lowerChar c0, lowerChar c1, lowerChar c2, lowerChar c3] = _
    rw [lowerChar_digit hd2, lowerChar_digit hd3]
    rcases h01 with ⟨h0, h1⟩ | ⟨h0, h1⟩ <;> subst h0 <;> subst h1
    · rw [e1, e9]
    · rw [e2, e0]
  have h4 := junk_len4_head (lowerStr t) hmem (by rw [hld]; rfl)
  rw [hld] at h4
  rcases h01 with ⟨h0, _⟩ | ⟨h0, _⟩ <;> subst h0
  · exact h4.1 rfl
  · exact h4.2 rfl

theorem pbLoop_acc_prefix :
    ∀ (toks acc : List String), ∃ ext, (pbLoop toks acc).1 = acc ++ ext := by
  intro toks
  induction toks with
  | nil =>
    intro acc
    exact ⟨[], by rw [List.append_nil]; rfl⟩
  | cons tok rest ih =>
    intro acc
    by_cases hj : knownJunkNames.contains (lowerStr tok) = true ∧ acc ≠ []
    · have hstep : pbLoop (tok :: rest) acc = pbLoop rest acc := by
        simp only [pbLoop]
        rw [if_pos hj]
      rw [hstep]
      exact ih acc
    · by_cases hy : (extractYear tok).isSome = true ∧ acc ≠ []
      · have hstep : pbLoop (tok :: rest) acc = (acc, extractYear tok) := by
          simp only [pbLoop]
          rw [if_neg hj, if_pos hy]
        rw [hstep]
        exact ⟨[], by rw [List.append_nil]⟩
      · by_cases hc : knownJunkNames.contains (lowerStr tok) = true
        · have hcond : ¬((!(knownJunkNames.contains (lowerStr tok))) = true) := by
            rw [hc]
            decide
          have hstep : pbLoop (tok :: rest) acc = pbLoop rest acc := by
            simp only [pbLoop]
            rw [if_neg hj, if_neg hy, if_neg hcond]
          rw [hstep]
          exact ih acc
        · have hcf : knownJunkNames.contains (lowerStr tok) = false :=
            Bool.eq_false_iff.mpr hc
          have hcond : (!(knownJunkNames.contains (lowerStr tok))) = true := by
            rw [hcf]
            rfl
          have hstep : pbLoop (tok :: rest) acc =
              pbLoop rest (acc ++ [tok]) := by
            simp only [pbLoop]
            rw [if_neg hj, if_neg hy, if_pos hcond]
          rw [hstep]
          obtain ⟨ext, he⟩ := ih (acc ++ [tok])
          refine ⟨tok :: ext, ?_⟩
          rw [he, List.append_assoc]
          rfl

theorem filter_junk_cons_drop {tok : String} {pre : List String}
    (h : knownJunkNames.contains (lowerStr tok) = true) :
    (tok :: pre).filter (fun u => !(knownJunkNames.contains (lowerStr u))) =
      pre.filter (fun u => !(knownJunkNames.contains (lowerStr u))) := by
  have hcond : ¬((!(knownJunkNames.contains (lowerStr tok))) = true) := by
    rw [h]
    decide
  rw [List.filter_cons, if_neg hcond]

theorem filter_junk_cons_keep {tok : String} {pre : List String}
    (h : knownJunkNames.contains (lowerStr tok) = false) :
    (tok :: pre).filter (fun u => !(knownJunkNames.contains (lowerStr u))) =
      tok :: pre.filter (fun u => !(knownJunkNames.contains (lowerStr u))) := by
  have hcond : (!(knownJunkNames.contains (lowerStr tok))) = true := by
    rw [h]
    rfl
  rw [List.filter_cons, if_pos hcond]

theorem pbLoop_year_split :
    ∀ (toks acc : List String) (y : String), (pbLoop toks acc).2 = some y →
      ∃ pre tok post, toks = pre ++ tok :: post ∧ extractYear tok = some y ∧
        pbLoop toks acc =
          (acc ++ pre.filter (fun u => !(knownJunkNames.contains (lowerStr u))),
            some y) ∧
        acc ++ pre.filter (fun u => !(knownJunkNames.contains (lowerStr u))) ≠
          [] := by
  intro toks
  induction toks with
  | nil =>
    intro acc y h
    exact Option.noConfusion h
  | cons tok rest ih =>
    intro acc y h
    by_cases hj : knownJunkNames.contains (lowerStr tok) = true ∧ acc ≠ []
    · have hstep : pbLoop (tok :: rest) acc = pbLoop rest acc := by
        simp only [pbLoop]
        rw [if_pos hj]
      rw [hstep] at h
      obtain ⟨pre, tok', post, htoks, hyear, hpair, hne⟩ := ih acc y h
      refine ⟨tok :: pre, tok', post, ?_, hyear, ?_, ?_⟩
      · rw [htoks]
        rfl
      · rw [hstep, hpair, filter_junk_cons_drop hj.1]
      · rw [filter_junk_cons_drop hj.1]
        exact hne
    · by_cases hy : (extractYear tok).isSome = true ∧ acc ≠ []
      · have hstep : pbLoop (tok :: rest) acc = (acc, extractYear tok) := by
          simp only [pbLoop]
          rw [if_neg hj, if_pos hy]
        rw [hstep] at h
        have hyear : extractYear tok = some y := h
        refine ⟨[], tok, rest, rfl, hyear, ?_, ?_⟩
        · rw [hstep, hyear]
          simp
        · simpa using hy.2
      · by_cases hc : knownJunkNames.contains (lowerStr tok) = true
        · have hcond : ¬((!(knownJunkNames.contains (lowerStr tok))) = true) := by
            rw [hc]
            decide
          have hstep : pbLoop (tok :: rest) acc = pbLoop rest acc := by
            simp only [pbLoop]
            rw [if_neg hj, if_neg hy, if_neg hcond]
          rw [hstep] at h
          obtain ⟨pre, tok', post, htoks, hyear, hpair, hne⟩ := ih acc y h
          refine ⟨tok :: pre, tok', post, ?_, hyear, ?_, ?_⟩
          · rw [htoks]
            rfl
          · rw [hstep, hpair, filter_junk_cons_drop hc]
          · rw [filter_junk_cons_drop hc]
            exact hne
        · have hcf : knownJunkNames.contains (lowerStr tok) = false :=
            Bool.eq_false_iff.mpr hc
          have hcond : (!(knownJunkNames.contains (lowerStr tok))) = true := by
            rw [hcf]
            rfl
          have hstep : pbLoop (tok :: rest) acc =
              pbLoop rest (acc ++ [tok]) := by
            simp only [pbLoop]
            rw [if_neg hj, if_neg hy, if_pos hcond]
          rw [hstep] at h
          obtain ⟨pre, tok', post, htoks, hyear, hpair, hne⟩ :=
            ih (acc ++ [tok]) y h
          refine ⟨tok :: pre, tok', post, ?_, hyear, ?_, ?_⟩
          · rw [htoks]
            rfl
          · rw [hstep, hpair, filter_junk_cons_keep hcf, List.append_assoc]
            rfl
          · rw [filter_junk_cons_keep hcf]
            simp

/-- C6.  `parse_base_name` applies its year discipline: (1) whenever a year
is returned, the token list splits as `pre ++ tok :: post` where `tok` is the
first token whose `extract_year` fires with at least one accumulated title
word, the accumulated words are exactly the non-junk tokens of `pre` (a
non-empty list), and the returned title is their `smart_title`; (2) when the
FIRST token is itself a four-digit year, it is kept as the first title word
rather than consumed as the year, and the title is built from the
accumulated tokens. -/
theorem parse_base_name_year_discipline (stem : String) :
    (∀ y, (parseBaseName stem).2 = some y →
      ∃ pre tok post,
        parseTokens stem = pre ++ tok :: post ∧
        extractYear tok = some y ∧
        pre.filter (fun u => !(knownJunkNames.contains (lowerStr u))) ≠ [] ∧
        (parseBaseName stem).1 =
          smartTitle
            (pre.filter (fun u => !(knownJunkNames.contains (lowerStr u))))) ∧
    (∀ t rest, parseTokens stem = t :: rest → isYearFormat t = true →
      ((pbLoop (parseTokens stem) []).1).head? = some t ∧
      (parseBaseName stem).1 = smartTitle (pbLoop (parseTokens stem) []).1) := by
  constructor
  · intro y hy2
    rcases hpb : pbLoop (parseTokens stem) [] with ⟨ts, yr⟩
    have hyr : yr = some y := by
      have h2 : (parseBaseName stem).2 = yr := by
        simp [parseBaseName, hpb]
      rw [h2] at hy2
      exact hy2
    have hpb2 : (pbLoop (parseTokens stem) []).2 = some y := by
      rw [hpb, hyr]
    obtain ⟨pre, tok, post, htoks, hyear, hpair, hne⟩ :=
      pbLoop_year_split (parseTokens stem) [] y hpb2
    rw [List.nil_append] at hpair hne
    refine ⟨pre, tok, post, htoks, hyear, hne, ?_⟩
    have hts : ts =
        pre.filter (fun u => !(knownJunkNames.contains (lowerStr u))) := by
      rw [hpb] at hpair
      exact congrArg Prod.fst hpair
    rw [← hts] at hne ⊢
    simp [parseBaseName, hpb, hne]
  · intro t rest htoks hyf
    have hnj : knownJunkNames.contains (lowerStr t) = false :=
      yearFormat_not_junk hyf
    have hcond : (!(knownJunkNames.contains (lowerStr t))) = true := by
      rw [hnj]
      rfl
    have hstep : pbLoop (t :: rest) [] = pbLoop rest [t] := by
      simp only [pbLoop]
      rw [if_neg (by simp), if_neg (by simp), if_pos hcond, List.nil_append]
    obtain ⟨ext, hext⟩ := pbLoop_acc_prefix rest [t]
    have hfst : (pbLoop (parseTokens stem) []).1 = t :: ext := by
      rw [htoks, hstep, hext]
      rfl
    have hne2 : (pbLoop (parseTokens stem) []).1 ≠ [] := by
      rw [hfst]
      simp
    constructor
    · rw [hfst]
      rfl
    · rcases hpb : pbLoop (parseTokens stem) [] with ⟨ts, yr⟩
      have hts : ts ≠ [] := by
        have h' := hne2
        rw [hpb] at h'
        exact h'
      simp [parseBaseName, hpb, hts]

theorem parse_base_name_year_discipline_witness :
    (∃ pre tok post,
      parseTokens "2001 a space odyssey 1968 1080p" = pre ++ tok :: post ∧
      extractYear tok = some "1968" ∧
      pre.filter (fun u => !(knownJunkNames.contains (lowerStr u))) ≠ [] ∧
      (parseBaseName "2001 a space odyssey 1968 1080p").1 =
        smartTitle
          (pre.filter (fun u => !(knownJunkNames.contains (lowerStr u))))) ∧
    ((pbLoop (parseTokens "2001 a space odyssey 1968 1080p") []).1.head? =
        some "2001" ∧
      (parseBaseName "2001 a space odyssey 1968 1080p").1 =
        smartTitle (pbLoop (parseTokens "2001 a space odyssey 1968 1080p") []).1) :=
  ⟨(parse_base_name_year_discipline "2001 a space odyssey 1968 1080p").1
      "1968" (by decide),
   (parse_base_name_year_discipline "2001 a space odyssey 1968 1080p").2
      "2001" ["a", "space", "odyssey", "1968", "1080p"] (by decide) (by decide)⟩

-- ---------------------------------------------------------------------------
-- Isolation of unexpected apply errors (C9)
-- ---------------------------------------------------------------------------

/-- C9, evaluation at the failing input.  First conjunct (name_normalizor's
`apply_plan`): an unexpected non-permission error on the first item is
caught by its bare `except Exception` handler, the item is skipped, and the
remaining item is still renamed, so per-item isolation holds there.  Second
conjunct (show_name_normal's `apply`): the per-move
`m.dst.parent.mkdir(parents=True, exist_ok=True)` sits outside every try
block, so when the second move's season folder path is occupied by a plain
file the raised error propagates out of `apply`: only the first move is
processed, the second move's `safe_move` is never reached and the third
move is never attempted.  One bad file aborts the whole show-side batch,
contradicting the claim. -/
theorem apply_plan_isolates_but_show_mkdir_aborts :
    applyGo
        (ApplyEnv.mk
          (fun it _ =>
            if it.original = "/m/a (1).mkv" then ExcRes.unexpectedErr
            else ExcRes.renamed)
          (fun _ _ => false) (fun _ _ => false)
          (fun _ _ => PermChoice.skipFile)) 1
        [RenameItem.mk "/m/a (1).mkv" "/m/a 1.mkv" "rename_video" "A 1" "",
         RenameItem.mk "/m/b (1).mkv" "/m/b 1.mkv" "rename_video" "B 1" ""]
        false =
      some
        [(RenameItem.mk "/m/a (1).mkv" "/m/a 1.mkv" "rename_video" "A 1" "",
            ItemOutcome.skippedError),
          (RenameItem.mk "/m/b (1).mkv" "/m/b 1.mkv" "rename_video" "B 1" "",
            ItemOutcome.renamed)] ∧
    applyShow
        (ShowApplyEnv.mk (fun m => m.src != "/tv/Show/b.mkv") (fun _ => true))
        [Move.mk "/tv/Show/a.mkv" "/tv/Show/Season 01/Show - S01E01.mkv",
         Move.mk "/tv/Show/b.mkv" "/tv/Show/Season 01/Show - S01E02.mkv",
         Move.mk "/tv/Show/c.mkv" "/tv/Show/Season 01/Show - S01E03.mkv"] =
      ([(Move.mk "/tv/Show/a.mkv" "/tv/Show/Season 01/Show - S01E01.mkv",
          true)],
        false) := by
  exact ⟨rfl, rfl⟩
